import Mathlib

/-!
Shallow embedding of `src/linkedin_agent/storage/patterns.py` (class `PatternStore`).

The store persists a single JSON document.  JSON values that can occur in this
program are strings, arrays and objects (the repository only ever stores these;
no claim involves numbers, booleans or null *values* — Python `None` shows up
only as the result of `dict.get` on a missing key, which we model with `Option`).

Python objects are modelled as association lists in insertion order, matching
CPython ordered dicts: `d[k] = v` updates the first occurrence in place or
appends, and iteration follows that order.

Dynamic failures of the Python code (`AttributeError`, `TypeError`,
`KeyError`, `json.JSONDecodeError`) are modelled with `Except PyErr`.
`datetime.now().isoformat()` is modelled by an explicit time-string parameter.
`list(set(...))` iterates a Python set in an unspecified (hash-driven) order;
we model it by keeping the first occurrence of each element, which agrees with
the set on element membership and multiplicity, and — like the Python set — is
a function of the element set alone once duplicates are removed.  Every claim
below depends only on membership, count and duplicate-freeness of that list.
Structural equality of `JValue` is used where Python uses `==`; for the values
these claims exercise (strings, and lists/dicts compared for identity of
content in insertion order) the two agree.  Python `repr` string escaping is
not modelled; the digests proved here only format plain strings.
-/

inductive JValue where
  | s (v : String)
  | jlist (xs : List JValue)
  | dict (fields : List (String × JValue))

mutual

def jeq : JValue → JValue → Bool
  | .s a, .s b => a == b
  | .jlist xs, .jlist ys => jeqList xs ys
  | .dict fs, .dict gs => jeqFields fs gs
  | _, _ => false

def jeqList : List JValue → List JValue → Bool
  | [], [] => true
  | x :: xs, y :: ys => jeq x y && jeqList xs ys
  | _, _ => false

def jeqFields : List (String × JValue) → List (String × JValue) → Bool
  | [], [] => true
  | (k, v) :: fs, (k2, v2) :: gs => k == k2 && jeq v v2 && jeqFields fs gs
  | _, _ => false

end

mutual

theorem jeq_eq : ∀ a b : JValue, jeq a b = true → a = b
  | .s a, .s b, h => by
      simp only [jeq] at h; exact congrArg JValue.s (by simpa using h)
  | .jlist xs, .jlist ys, h => by
      simp only [jeq] at h; exact congrArg JValue.jlist (jeqList_eq xs ys h)
  | .dict fs, .dict gs, h => by
      simp only [jeq] at h; exact congrArg JValue.dict (jeqFields_eq fs gs h)
  | .s _, .jlist _, h => by simp [jeq] at h
  | .s _, .dict _, h => by simp [jeq] at h
  | .jlist _, .s _, h => by simp [jeq] at h
  | .jlist _, .dict _, h => by simp [jeq] at h
  | .dict _, .s _, h => by simp [jeq] at h
  | .dict _, .jlist _, h => by simp [jeq] at h

theorem jeqList_eq : ∀ xs ys : List JValue, jeqList xs ys = true → xs = ys
  | [], [], _ => rfl
  | x :: xs, y :: ys, h => by
      simp only [jeqList, Bool.and_eq_true] at h
      exact congrArg₂ List.cons (jeq_eq x y h.1) (jeqList_eq xs ys h.2)
  | [], _ :: _, h => by simp [jeqList] at h
  | _ :: _, [], h => by simp [jeqList] at h

theorem jeqFields_eq :
    ∀ fs gs : List (String × JValue), jeqFields fs gs = true → fs = gs
  | [], [], _ => rfl
  | (k, v) :: fs, (k2, v2) :: gs, h => by
      simp only [jeqFields, Bool.and_eq_true] at h
      have h1 : k = k2 := by simpa using h.1.1
      have h2 : v = v2 := jeq_eq v v2 h.1.2
      have h3 : fs = gs := jeqFields_eq fs gs h.2
      simp [h1, h2, h3]
  | [], _ :: _, h => by simp [jeqFields] at h
  | _ :: _, [], h => by simp [jeqFields] at h

end

mutual

theorem jeq_refl : ∀ a : JValue, jeq a a = true
  | .s a => by simp [jeq]
  | .jlist xs => by simp only [jeq]; exact jeqList_refl xs
  | .dict fs => by simp only [jeq]; exact jeqFields_refl fs

theorem jeqList_refl : ∀ xs : List JValue, jeqList xs xs = true
  | [] => rfl
  | x :: xs => by
      simp only [jeqList, Bool.and_eq_true]
      exact ⟨jeq_refl x, jeqList_refl xs⟩

theorem jeqFields_refl : ∀ fs : List (String × JValue), jeqFields fs fs = true
  | [] => rfl
  | (k, v) :: fs => by
      simp only [jeqFields, Bool.and_eq_true]
      exact ⟨⟨by simp, jeq_refl v⟩, jeqFields_refl fs⟩

end

instance : DecidableEq JValue := fun a b =>
  if h : jeq a b = true then .isTrue (jeq_eq a b h)
  else .isFalse (fun he => h (he ▸ jeq_refl a))

/-- Python exception kinds raised by the code under study. -/
inductive PyErr where
  | attributeError
  | typeError
  | keyError
  | jsonDecodeError
  deriving DecidableEq

/-- State of the backing file `patterns/patterns.json`: absent, present but not
well-formed JSON, or present with a parsed document. -/
inductive FileState where
  | missing
  | corrupt
  | valid (doc : JValue)
  deriving DecidableEq

/-! ### Python primitive operations on JSON-like values -/

/-- First-occurrence lookup in an association list (Python `d[k]` / `k in d`
semantics on dicts, whose keys are unique). -/
def lookupStr : List (String × JValue) → String → Option JValue
  | [], _ => none
  | (k0, v0) :: rest, k => if k0 = k then some v0 else lookupStr rest k

/-- Python `d[k] = v` on an ordered dict: update the first occurrence in
place, else append. -/
def setKey : List (String × JValue) → String → JValue → List (String × JValue)
  | [], k, v => [(k, v)]
  | (k0, v0) :: rest, k, v =>
      if k0 = k then (k, v) :: rest else (k0, v0) :: setKey rest k v

/-- Python `k in d` for a dict. -/
def containsKey (fs : List (String × JValue)) (k : String) : Bool :=
  (lookupStr fs k).isSome

/-- Python `d.get(k, default)` for a dict. -/
def dictGetD (fs : List (String × JValue)) (k : String) (d : JValue) : JValue :=
  (lookupStr fs k).getD d

/-- Python hashability: of the JSON shapes, only strings are hashable
(lists and dicts raise `TypeError` when hashed). -/
def hashable : JValue → Bool
  | .s _ => true
  | _ => false

/-- Hashability of a possible `dict.get` result; Python `None` is hashable. -/
def hashableOpt : Option JValue → Bool
  | none => true
  | some v => hashable v

/-- Model of `list(set(l))`: duplicates collapse, keeping the first occurrence
of each element.  the Python set iteration order is unspecified; every claim
below is insensitive to the order of this list. -/
def dedupFirst [DecidableEq α] : List α → List α → List α
  | _, [] => []
  | seen, x :: xs =>
      if x ∈ seen then dedupFirst seen xs else x :: dedupFirst (x :: seen) xs

/-- Boolean list-prefix test (helper for Python substring membership). -/
def listIsPrefixB [DecidableEq α] : List α → List α → Bool
  | [], _ => true
  | _ :: _, [] => false
  | a :: as, b :: bs => a = b && listIsPrefixB as bs

/-- Boolean list-infix test (helper for Python substring membership). -/
def listIsInfixB [DecidableEq α] (n : List α) : List α → Bool
  | [] => n.isEmpty
  | h :: t => listIsPrefixB n (h :: t) || listIsInfixB n t

/-- Python `needle in hay` on strings: substring containment. -/
def strContains (hay needle : String) : Bool :=
  listIsInfixB needle.toList hay.toList

/-- Python truthiness of a JSON value: empty string, list and dict are falsy. -/
def truthy : JValue → Bool
  | .s v => v ≠ ""
  | .jlist xs => ¬ xs.isEmpty
  | .dict fs => ¬ fs.isEmpty

/-- Python `len` on the JSON shapes (total: strings, lists and dicts all
support `len`). -/
def pyLen : JValue → Nat
  | .s v => v.length
  | .jlist xs => xs.length
  | .dict fs => fs.length

/-- A single-quote character, as used by Python `repr` of strings. -/
def pyQuote : String := String.singleton (Char.ofNat 39)

mutual

/-- Python `repr` of a JSON value (string escaping not modelled). -/
def pyRepr : JValue → String
  | .s v => pyQuote ++ v ++ pyQuote
  | .jlist xs => "[" ++ pyReprElems xs ++ "]"
  | .dict fs => "\x7b" ++ pyReprFields fs ++ "\x7d"

def pyReprElems : List JValue → String
  | [] => ""
  | [x] => pyRepr x
  | x :: y :: rest => pyRepr x ++ ", " ++ pyReprElems (y :: rest)

def pyReprFields : List (String × JValue) → String
  | [] => ""
  | [(k, v)] => pyQuote ++ k ++ pyQuote ++ ": " ++ pyRepr v
  | (k, v) :: p :: rest => pyQuote ++ k ++ pyQuote ++ ": " ++ pyRepr v ++ ", " ++ pyReprFields (p :: rest)

end

/-- Python `str()` of a JSON value as used in f-strings: a string formats as
itself, other values as their `repr`. -/
def pyStr : JValue → String
  | .s v => v
  | v => pyRepr v

/-- Python `k in v` for a string key against a dict (key test), list (element
test) or string (substring test); total for string keys. -/
def pyContains (v : JValue) (k : String) : Bool :=
  match v with
  | .dict fs => containsKey fs k
  | .jlist xs => JValue.s k ∈ xs
  | .s str => strContains str k

/-- Python `v[k]` for a string key: dict lookup (`KeyError` when absent);
`TypeError` on lists and strings. -/
def pyIndex (v : JValue) (k : String) : Except PyErr JValue :=
  match v with
  | .dict fs =>
      match lookupStr fs k with
      | some w => .ok w
      | none => .error .keyError
  | _ => .error .typeError

/-- Python `v.get(k, default)`: `AttributeError` unless `v` is a dict. -/
def pyGetD (v : JValue) (k : String) (d : JValue) : Except PyErr JValue :=
  match v with
  | .dict fs => .ok (dictGetD fs k d)
  | _ => .error .attributeError

/-- Python `v[:5]` followed by iteration: a list yields its first five
elements, a string yields its first five characters (as one-character
strings), a dict raises `TypeError` (unhashable slice). -/
def pySlice5 (v : JValue) : Except PyErr (List JValue) :=
  match v with
  | .jlist xs => .ok (xs.take 5)
  | .s str => .ok ((str.toList.take 5).map (fun c => JValue.s (String.singleton c)))
  | .dict _ => .error .typeError

/-- Python `sep.join(items)`: `TypeError` unless every item is a string. -/
def pyJoin (sep : String) : List JValue → Except PyErr String
  | [] => .ok ""
  | [.s v] => .ok v
  | .s v :: x :: rest =>
      match pyJoin sep (x :: rest) with
      | .ok r => .ok (v ++ sep ++ r)
      | .error e => .error e
  | _ => .error .typeError

/-! ### The `PatternStore` operations -/

/-- Source `PatternStore._empty_patterns` (patterns.py lines 98–106): the
empty scaffold with fixed version tag, both timestamps set to now, no sources
and no patterns. -/
def emptyPatterns (t : String) : JValue :=
  .dict [("version", .s "1.0"),
         ("created_at", .s t),
         ("updated_at", .s t),
         ("sources", .jlist []),
         ("patterns", .dict [])]

/-- Source `PatternStore.load` (lines 16–22): a missing file yields the empty
scaffold; an existing file is parsed, and a malformed one raises
`json.JSONDecodeError`.  The file itself is never written by `load`. -/
def load (fs : FileState) (t : String) : Except PyErr JValue :=
  match fs with
  | .missing => .ok (emptyPatterns t)
  | .corrupt => .error .jsonDecodeError
  | .valid d => .ok d

/-- Source `PatternStore.save` (lines 24–28): stamp `updated_at` with the
current time and serialize; `TypeError` if the document is not a dict
(`patterns["updated_at"] = ...` on a non-dict). -/
def save (t : String) (doc : JValue) : Except PyErr JValue :=
  match doc with
  | .dict fields => .ok (.dict (setKey fields "updated_at" (.s t)))
  | _ => .error .typeError

/-- The effect of `save` on the backing file: the whole document is replaced
by the stamped one. -/
def saveFS (t : String) (doc : JValue) : Except PyErr (FileState × JValue) :=
  match save t doc with
  | .ok d => .ok (.valid d, d)
  | .error e => .error e

/-- Seen-set initialisation in `PatternStore._merge_lists` (line 58):
`{item.get("example") for item in existing if isinstance(item, dict)}`,
raising `TypeError` if some identity key is unhashable. -/
def buildSeen : List JValue → Except PyErr (List (Option JValue))
  | [] => .ok []
  | .dict fs :: rest =>
      if hashableOpt (lookupStr fs "example") then
        match buildSeen rest with
        | .ok seenRest => .ok (lookupStr fs "example" :: seenRest)
        | .error e => .error e
      else .error .typeError
  | _ :: rest => buildSeen rest

/-- The loop of `PatternStore._merge_lists` (lines 59–65) over the incoming
items, with `acc` the growing `existing` list and `seen` the seen set:
a dict item is appended only if its identity key is unseen (the membership
test hashes the key first), and its key then joins the seen set; any other
item is appended only if not already present in the list by equality. -/
def mergeListsAux (seen : List (Option JValue)) (acc : List JValue) :
    List JValue → Except PyErr (List JValue)
  | [] => .ok acc
  | it :: rest =>
      match it with
      | .dict fs =>
          if hashableOpt (lookupStr fs "example") then
            if lookupStr fs "example" ∈ seen then mergeListsAux seen acc rest
            else mergeListsAux (lookupStr fs "example" :: seen) (acc ++ [it]) rest
      else .error .typeError
      | _ => if it ∈ acc then mergeListsAux seen acc rest
             else mergeListsAux seen (acc ++ [it]) rest

/-- The `_merge_lists` loop when `existing` is a Python dict: iterating it
yields its keys, so the seen set is empty; a dict item reaches
`existing.append` (`AttributeError`) after its key is hashed (`TypeError` if
unhashable); a string item is skipped when it is a key of `existing`, else
appended (`AttributeError`); a list item fails the unhashable membership test. -/
def mergeIntoDict (fs : List (String × JValue)) : List JValue → Except PyErr JValue
  | [] => .ok (.dict fs)
  | it :: rest =>
      match it with
      | .dict g =>
          if hashableOpt (lookupStr g "example") then .error .attributeError
          else .error .typeError
      | .s v => if containsKey fs v then mergeIntoDict fs rest
                else .error .attributeError
      | .jlist _ => .error .typeError

/-- The `_merge_lists` loop when `existing` is a Python string: iterating it
yields characters, so the seen set is empty; a dict item reaches
`existing.append` (`AttributeError`) after its key is hashed; a string item is
skipped when it is a substring of `existing`, else appended
(`AttributeError`); a list item makes the `in` test raise `TypeError`. -/
def mergeIntoStr (sv : String) : List JValue → Except PyErr JValue
  | [] => .ok (.s sv)
  | it :: rest =>
      match it with
      | .dict g =>
          if hashableOpt (lookupStr g "example") then .error .attributeError
          else .error .typeError
      | .s v => if strContains sv v then mergeIntoStr sv rest
                else .error .attributeError
      | .jlist _ => .error .typeError

/-- Source `PatternStore._merge_lists` (lines 56–66), by the runtime shape of
`existing` (the code reaches it whenever the incoming value is a list). -/
def mergeLists (existing : JValue) (new : List JValue) : Except PyErr JValue :=
  match existing with
  | .jlist xs =>
      match buildSeen xs with
      | .ok seen =>
          match mergeListsAux seen xs new with
          | .ok m => .ok (.jlist m)
          | .error e => .error e
      | .error e => .error e
  | .dict fs => mergeIntoDict fs new
  | .s sv => mergeIntoStr sv new

/-- Python `cur.update(inc)` on dicts: incoming pairs are written in
iteration order; an existing key is updated in place, a new key appended. -/
def pyDictUpdate (cur : List (String × JValue)) : List (String × JValue) → List (String × JValue)
  | [] => cur
  | (k, v) :: rest => pyDictUpdate (setKey cur k v) rest

/-- One iteration of the merge loop of `PatternStore.update` (lines 42–51),
for one `(key, value)` binding against the current `patterns` dict:
if the key is present and the value is a list, merge lists; else if the key is
present and the value is a dict, call `.update` on the stored value
(`AttributeError` unless it is a dict); else store the value wholesale. -/
def updateStep (p : List (String × JValue)) (kv : String × JValue) :
    Except PyErr (List (String × JValue)) :=
  match lookupStr p kv.1, kv.2 with
  | some ex, .jlist items =>
      match mergeLists ex items with
      | .ok m => .ok (setKey p kv.1 m)
      | .error e => .error e
  | some ex, .dict g =>
      match ex with
      | .dict cur => .ok (setKey p kv.1 (.dict (pyDictUpdate cur g)))
      | _ => .error .attributeError
  | _, _ => .ok (setKey p kv.1 kv.2)

/-- The merge loop of `PatternStore.update` over all bindings of
`new_patterns` (in dict iteration order).  When `current["patterns"]` is not a
dict, the first processed binding raises `TypeError` (string indexing or item
assignment on a list/str); with no bindings the loop body never runs. -/
def updateLoop (patsV : JValue) : List (String × JValue) → Except PyErr JValue
  | [] => .ok patsV
  | kv :: rest =>
      match patsV with
      | .dict p =>
          match updateStep p kv with
          | .ok p2 => updateLoop (.dict p2) rest
          | .error e => .error e
      | _ => .error .typeError

/-- The line `if "patterns" not in current: current["patterns"] = {}` of
`PatternStore.update` (lines 39–40). -/
def ensurePatterns (fields : List (String × JValue)) : List (String × JValue) :=
  if containsKey fields "patterns" then fields
  else setKey fields "patterns" (.dict [])

/-- The document fields after the metadata steps of `PatternStore.update`
(lines 34–40): `updated_at` stamped, `sources` replaced by the deduplicated
union of the stored elements `cur` and the incoming `sources`, and the
`patterns` key scaffolded when absent. -/
def metaFields (fields0 : List (String × JValue)) (t : String) (cur : List JValue)
    (sources : List String) : List (String × JValue) :=
  ensurePatterns (setKey (setKey fields0 "updated_at" (.s t)) "sources"
    (.jlist (dedupFirst [] (cur ++ sources.map JValue.s))))

/-- Source `PatternStore.update` (lines 30–54): load the current document,
refresh `updated_at`, replace `sources` by the deduplicated union with the
incoming sources (`TypeError` if the stored value is not a list or holds an
unhashable element), scaffold `patterns` when absent, run the merge loop, and
save.  Returns the new file state together with the returned document. -/
def update (fs : FileState) (t : String) (newPatterns : List (String × JValue))
    (sources : List String) : Except PyErr (FileState × JValue) :=
  match load fs t with
  | .error e => .error e
  | .ok current =>
      match current with
      | .dict fields0 =>
          match dictGetD (setKey fields0 "updated_at" (.s t)) "sources" (.jlist []) with
          | .jlist cur =>
              if cur.all hashable then
                match updateLoop
                    ((lookupStr (metaFields fields0 t cur sources) "patterns").getD (.dict []))
                    newPatterns with
                | .ok patsV2 =>
                    saveFS t (.dict (setKey (metaFields fields0 t cur sources) "patterns" patsV2))
                | .error e => .error e
              else .error .typeError
          | _ => .error .typeError
      | _ => .error .typeError

/-- Source `PatternStore.clear` (lines 68–70): save the empty scaffold,
regardless of the current file state. -/
def clear (t : String) : Except PyErr (FileState × JValue) :=
  saveFS t (emptyPatterns t)

/-- The `hooks` block of `PatternStore.get_summary` (lines 88–89). -/
def hooksLine (pv : JValue) : Except PyErr (List String) :=
  if pyContains pv "hooks" then
    match pyIndex pv "hooks" with
    | .ok hv => .ok ["Hooks: " ++ toString (pyLen hv) ++ " patterns"]
    | .error e => .error e
  else .ok []

/-- The `structure` block of `PatternStore.get_summary` (lines 90–91). -/
def structureLine (pv : JValue) : Except PyErr (List String) :=
  if pyContains pv "structure" then
    match pyIndex pv "structure" with
    | .ok sv =>
        match pyGetD sv "avg_length" (.s "N/A") with
        | .ok av => .ok ["Avg length: " ++ pyStr av ++ " words"]
        | .error e => .error e
    | .error e => .error e
  else .ok []

/-- The `tone` block of `PatternStore.get_summary` (lines 92–93). -/
def toneLine (pv : JValue) : Except PyErr (List String) :=
  if pyContains pv "tone" then
    match pyIndex pv "tone" with
    | .ok tv =>
        match pyGetD tv "formality" (.s "N/A") with
        | .ok fv => .ok ["Tone: " ++ pyStr fv]
        | .error e => .error e
    | .error e => .error e
  else .ok []

/-- The `ctas` block of `PatternStore.get_summary` (lines 94–95). -/
def ctasLine (pv : JValue) : Except PyErr (List String) :=
  if pyContains pv "ctas" then
    match pyIndex pv "ctas" with
    | .ok cv => .ok ["CTAs: " ++ toString (pyLen cv) ++ " patterns"]
    | .error e => .error e
  else .ok []

/-- The `topics` block of `PatternStore.get_summary` (lines 96–97). -/
def topicsLine (pv : JValue) : Except PyErr (List String) :=
  if pyContains pv "topics" then
    match pyIndex pv "topics" with
    | .ok tv =>
        match pySlice5 tv with
        | .ok sl =>
            match pyJoin ", " sl with
            | .ok j => .ok ["Topics: " ++ j]
            | .error e => .error e
        | .error e => .error e
    | .error e => .error e
  else .ok []

/-- Source `PatternStore.get_summary` (lines 72–96): load, return `None` when
`patterns.get("patterns")` is falsy, else emit the source count, the
last-updated stamp, a blank line, and one line per known category present. -/
def get_summary (fs : FileState) (t : String) : Except PyErr (Option String) :=
  match load fs t with
  | .error e => .error e
  | .ok patterns =>
      match patterns with
      | .dict fields =>
          match lookupStr fields "patterns" with
          | none => .ok none
          | some pv =>
              if truthy pv then
                match hooksLine pv with
                | .error e => .error e
                | .ok hl =>
                    match structureLine pv with
                    | .error e => .error e
                    | .ok sl =>
                        match toneLine pv with
                        | .error e => .error e
                        | .ok tl =>
                            match ctasLine pv with
                            | .error e => .error e
                            | .ok cl =>
                                match topicsLine pv with
                                | .error e => .error e
                                | .ok al =>
                                    .ok (some (String.intercalate "\n"
                                      (["Sources: " ++
                                          toString (pyLen (dictGetD fields "sources" (.jlist []))) ++
                                          " posts analyzed",
                                        "Last updated: " ++
                                          pyStr (dictGetD fields "updated_at" (.s "Never")),
                                        ""] ++ hl ++ sl ++ tl ++ cl ++ al)))
              else .ok none
      | _ => .error .attributeError

/-! ### Derived accessors used to state the claims -/

/-- Root fields of a document (empty for a non-dict root). -/
def rootFields : JValue → List (String × JValue)
  | .dict fs => fs
  | _ => []

/-- The stored `patterns` mapping of a document, as an association list. -/
def docPatterns (d : JValue) : List (String × JValue) :=
  match lookupStr (rootFields d) "patterns" with
  | some (.dict p) => p
  | _ => []

/-- The stored value of one pattern category. -/
def patValue (d : JValue) (k : String) : Option JValue :=
  lookupStr (docPatterns d) k

/-- The stored `sources` list of a document. -/
def docSources (d : JValue) : List JValue :=
  match lookupStr (rootFields d) "sources" with
  | some (.jlist xs) => xs
  | _ => []

/-- Identity keys (`example` field, or null) of the attribute-mapping entries
of a sequence, in order. -/
def dictEntryKeys : List JValue → List (Option JValue)
  | [] => []
  | .dict fs :: rest => lookupStr fs "example" :: dictEntryKeys rest
  | _ :: rest => dictEntryKeys rest

/-- The non-null `example` values of the attribute-mapping entries of a
sequence, in order. -/
def nonNullExampleKeys : List JValue → List JValue
  | [] => []
  | .dict fs :: rest =>
      match lookupStr fs "example" with
      | some k => k :: nonNullExampleKeys rest
      | none => nonNullExampleKeys rest
  | _ :: rest => nonNullExampleKeys rest

/-- Whether a value is sequence-shaped (a Python list). -/
def isJList : JValue → Bool
  | .jlist _ => true
  | _ => false

instance {ε α : Type} [DecidableEq ε] [DecidableEq α] : DecidableEq (Except ε α)
  | .ok a, .ok b =>
      if h : a = b then .isTrue (by rw [h])
      else .isFalse (fun hh => h (Except.ok.inj hh))
  | .error a, .error b =>
      if h : a = b then .isTrue (by rw [h])
      else .isFalse (fun hh => h (Except.error.inj hh))
  | .ok _, .error _ => .isFalse (fun hh => Except.noConfusion hh)
  | .error _, .ok _ => .isFalse (fun hh => Except.noConfusion hh)

/-! ### Lemmas: association-list primitives -/

theorem lookupStr_setKey_self (fs : List (String × JValue)) (k : String) (v : JValue) :
    lookupStr (setKey fs k v) k = some v := by
  induction fs with
  | nil => simp [setKey, lookupStr]
  | cons hd tl ih =>
      obtain ⟨k0, v0⟩ := hd
      by_cases h : k0 = k
      · simp [setKey, h, lookupStr]
      · simp [setKey, h, lookupStr, ih]

theorem lookupStr_setKey_ne (fs : List (String × JValue)) (k k2 : String) (v : JValue)
    (h : k2 ≠ k) : lookupStr (setKey fs k v) k2 = lookupStr fs k2 := by
  have hk : ¬ k = k2 := fun he => h he.symm
  induction fs with
  | nil => simp [setKey, lookupStr, hk]
  | cons hd tl ih =>
      obtain ⟨k0, v0⟩ := hd
      by_cases h0 : k0 = k
      · subst h0
        simp [setKey, lookupStr, hk]
      · simp [setKey, h0, lookupStr, ih]

theorem setKey_of_lookup_eq (fs : List (String × JValue)) (k : String) (v : JValue)
    (h : lookupStr fs k = some v) : setKey fs k v = fs := by
  induction fs with
  | nil => simp [lookupStr] at h
  | cons hd tl ih =>
      obtain ⟨k0, v0⟩ := hd
      by_cases h0 : k0 = k
      · subst h0
        simp [lookupStr] at h
        simp [setKey, h]
      · simp [lookupStr, h0] at h
        simp [setKey, h0, ih h]

theorem containsKey_setKey_self (fs : List (String × JValue)) (k : String) (v : JValue) :
    containsKey (setKey fs k v) k = true := by
  simp [containsKey, lookupStr_setKey_self]

theorem containsKey_mono_setKey (fs : List (String × JValue)) (k k2 : String) (v : JValue)
    (h : containsKey fs k2 = true) : containsKey (setKey fs k v) k2 = true := by
  by_cases he : k2 = k
  · subst he; exact containsKey_setKey_self fs k2 v
  · simpa [containsKey, lookupStr_setKey_ne fs k k2 v he] using h

theorem lookupStr_eq_none_iff (fs : List (String × JValue)) (k : String) :
    lookupStr fs k = none ↔ k ∉ fs.map Prod.fst := by
  induction fs with
  | nil => simp [lookupStr]
  | cons hd tl ih =>
      obtain ⟨k0, v0⟩ := hd
      by_cases h0 : k0 = k
      · subst h0; simp [lookupStr]
      · have hk : ¬ k = k0 := fun he => h0 he.symm
        simp [lookupStr, h0, ih, hk]

theorem lookupStr_mem (fs : List (String × JValue)) (k : String) (v : JValue)
    (h : lookupStr fs k = some v) : (k, v) ∈ fs := by
  induction fs with
  | nil => simp [lookupStr] at h
  | cons hd tl ih =>
      obtain ⟨k0, v0⟩ := hd
      by_cases h0 : k0 = k
      · subst h0
        simp [lookupStr] at h
        simp [h]
      · simp [lookupStr, h0] at h
        simp [ih h]

theorem lookupStr_of_mem_nodup (fs : List (String × JValue)) (k : String) (v : JValue)
    (hnd : (fs.map Prod.fst).Nodup) (h : (k, v) ∈ fs) : lookupStr fs k = some v := by
  induction fs with
  | nil => simp at h
  | cons hd tl ih =>
      obtain ⟨k0, v0⟩ := hd
      simp only [List.map_cons, List.nodup_cons] at hnd
      rcases List.mem_cons.mp h with h1 | h1
      · cases h1
        simp [lookupStr]
      · have hk : k0 ≠ k := by
          rintro rfl
          exact hnd.1 (List.mem_map.mpr ⟨(k0, v), h1, rfl⟩)
        simp [lookupStr, hk, ih hnd.2 h1]

theorem lookupStr_append_right_ne (p : List (String × JValue)) (k0 k : String) (v0 : JValue)
    (h : k ≠ k0) : lookupStr (p ++ [(k0, v0)]) k = lookupStr p k := by
  have hk : ¬ k0 = k := fun he => h he.symm
  induction p with
  | nil => simp [lookupStr, hk]
  | cons hd tl ih =>
      obtain ⟨k1, v1⟩ := hd
      by_cases h1 : k1 = k <;> simp [lookupStr, h1, ih]

/-! ### Lemmas: `dedupFirst` -/

theorem mem_dedupFirst [DecidableEq α] (seen l : List α) (a : α) :
    a ∈ dedupFirst seen l ↔ a ∈ l ∧ a ∉ seen := by
  induction l generalizing seen with
  | nil => simp [dedupFirst]
  | cons x xs ih =>
      by_cases hx : x ∈ seen
      · rw [dedupFirst, if_pos hx, ih]
        constructor
        · rintro ⟨h1, h2⟩
          exact ⟨List.mem_cons_of_mem x h1, h2⟩
        · rintro ⟨h1, h2⟩
          rcases List.mem_cons.mp h1 with rfl | h1
          · exact absurd hx h2
          · exact ⟨h1, h2⟩
      · rw [dedupFirst, if_neg hx, List.mem_cons, ih]
        constructor
        · rintro (rfl | ⟨h1, h2⟩)
          · exact ⟨List.mem_cons_self a xs, hx⟩
          · exact ⟨List.mem_cons_of_mem x h1,
              fun hc => h2 (List.mem_cons_of_mem x hc)⟩
        · rintro ⟨h1, h2⟩
          rcases List.mem_cons.mp h1 with rfl | h1
          · exact Or.inl rfl
          · by_cases hax : a = x
            · exact Or.inl hax
            · refine Or.inr ⟨h1, fun hc => ?_⟩
              rcases List.mem_cons.mp hc with h3 | h3
              · exact hax h3
              · exact h2 h3

theorem nodup_dedupFirst [DecidableEq α] (seen l : List α) :
    (dedupFirst seen l).Nodup := by
  induction l generalizing seen with
  | nil => simp [dedupFirst]
  | cons x xs ih =>
      by_cases hx : x ∈ seen
      · simpa [dedupFirst, hx] using ih seen
      · rw [dedupFirst, if_neg hx, List.nodup_cons]
        refine ⟨fun hc => ?_, ih (x :: seen)⟩
        exact ((mem_dedupFirst (x :: seen) xs x).mp hc).2 (List.mem_cons_self x seen)

theorem dedupFirst_eq_self [DecidableEq α] :
    ∀ (l seen : List α), l.Nodup → (∀ a ∈ l, a ∉ seen) → dedupFirst seen l = l
  | [], seen, _, _ => by simp [dedupFirst]
  | x :: xs, seen, hd, hs => by
      have hx : x ∉ seen := hs x (List.mem_cons_self x xs)
      rw [dedupFirst, if_neg hx]
      congr 1
      refine dedupFirst_eq_self xs (x :: seen) (List.nodup_cons.mp hd).2
        (fun a ha hc => ?_)
      rcases List.mem_cons.mp hc with rfl | h3
      · exact (List.nodup_cons.mp hd).1 ha
      · exact hs a (List.mem_cons_of_mem x ha) h3

theorem dedupFirst_append_singleton [DecidableEq α] :
    ∀ (l seen : List α) (a : α),
      dedupFirst seen (l ++ [a]) =
        dedupFirst seen l ++ (if a ∈ seen ∨ a ∈ l then [] else [a])
  | [], seen, a => by by_cases h : a ∈ seen <;> simp [dedupFirst, h]
  | x :: xs, seen, a => by
      by_cases hx : x ∈ seen
      · have hcond : (a ∈ seen ∨ a ∈ x :: xs) = (a ∈ seen ∨ a ∈ xs) := by
          apply propext; constructor
          · rintro (h | h)
            · exact Or.inl h
            · rcases List.mem_cons.mp h with rfl | h
              · exact Or.inl hx
              · exact Or.inr h
          · rintro (h | h)
            · exact Or.inl h
            · exact Or.inr (List.mem_cons_of_mem x h)
        rw [List.cons_append, dedupFirst, if_pos hx, dedupFirst, if_pos hx,
          dedupFirst_append_singleton xs seen a]
        simp only [hcond]
      · have hcond : (a ∈ x :: seen ∨ a ∈ xs) = (a ∈ seen ∨ a ∈ x :: xs) := by
          apply propext
          simp only [List.mem_cons]
          tauto
        rw [List.cons_append, dedupFirst, if_neg hx, dedupFirst, if_neg hx,
          dedupFirst_append_singleton xs (x :: seen) a]
        simp only [hcond, List.cons_append]

theorem dedupFirst_append_of_subset [DecidableEq α] (seen d S : List α)
    (h : ∀ a ∈ S, a ∈ d) : dedupFirst seen (d ++ S) = dedupFirst seen d := by
  induction S using List.reverseRecOn with
  | nil => simp
  | append_singleton S a ih =>
      have ha : a ∈ d := h a (by simp)
      have hS : ∀ b ∈ S, b ∈ d := fun b hb => h b (by simp [hb])
      rw [← List.append_assoc, dedupFirst_append_singleton,
        if_pos (Or.inr (by simp [ha])), List.append_nil, ih hS]

/-! ### Lemmas: sequence merge -/

theorem dictEntryKeys_append (a b : List JValue) :
    dictEntryKeys (a ++ b) = dictEntryKeys a ++ dictEntryKeys b := by
  induction a with
  | nil => simp [dictEntryKeys]
  | cons x xs ih =>
      cases x <;> simp [dictEntryKeys, ih]

theorem mem_dictEntryKeys_of_mem (m : List JValue) (fs : List (String × JValue))
    (h : JValue.dict fs ∈ m) : lookupStr fs "example" ∈ dictEntryKeys m := by
  induction m with
  | nil => simp at h
  | cons x xs ih =>
      rcases List.mem_cons.mp h with heq | hmem
      · cases heq.symm
        simp [dictEntryKeys]
      · cases x with
        | s v => simpa [dictEntryKeys] using ih hmem
        | jlist l => simpa [dictEntryKeys] using ih hmem
        | dict g =>
            simp only [dictEntryKeys, List.mem_cons]
            exact Or.inr (ih hmem)

theorem buildSeen_ok (xs : List JValue) (seen : List (Option JValue))
    (h : buildSeen xs = .ok seen) : seen = dictEntryKeys xs := by
  induction xs generalizing seen with
  | nil =>
      simp only [buildSeen, Except.ok.injEq] at h
      simp [dictEntryKeys, ← h]
  | cons x rest ih =>
      cases x with
      | s v => simpa [buildSeen, dictEntryKeys] using ih seen h
      | jlist l => simpa [buildSeen, dictEntryKeys] using ih seen h
      | dict fs =>
          by_cases hh : hashableOpt (lookupStr fs "example") = true
          · simp only [buildSeen, if_pos hh] at h
            cases hrest : buildSeen rest with
            | ok s2 =>
                rw [hrest] at h
                simp only [Except.ok.injEq] at h
                rw [← h, dictEntryKeys, ← ih s2 hrest]
            | error e => rw [hrest] at h; simp at h
          · simp [buildSeen, hh] at h

theorem mergeListsAux_appends (new : List JValue) :
    ∀ (seen : List (Option JValue)) (acc m : List JValue),
      mergeListsAux seen acc new = .ok m → ∃ ext, m = acc ++ ext := by
  induction new with
  | nil =>
      intro seen acc m h
      simp only [mergeListsAux, Except.ok.injEq] at h
      exact ⟨[], by simp [h.symm]⟩
  | cons it rest ih =>
      intro seen acc m h
      cases it with
      | dict fs =>
          by_cases hh : hashableOpt (lookupStr fs "example") = true
          · by_cases hm : lookupStr fs "example" ∈ seen
            · simp only [mergeListsAux, if_pos hh, if_pos hm] at h
              exact ih seen acc m h
            · simp only [mergeListsAux, if_pos hh, if_neg hm] at h
              obtain ⟨ext, hext⟩ := ih _ _ m h
              exact ⟨.dict fs :: ext, by simp [hext]⟩
          · simp [mergeListsAux, hh] at h
      | s v =>
          by_cases hm : JValue.s v ∈ acc
          · simp only [mergeListsAux, if_pos hm] at h
            exact ih seen acc m h
          · simp only [mergeListsAux, if_neg hm] at h
            obtain ⟨ext, hext⟩ := ih _ _ m h
            exact ⟨.s v :: ext, by simp [hext]⟩
      | jlist l =>
          by_cases hm : JValue.jlist l ∈ acc
          · simp only [mergeListsAux, if_pos hm] at h
            exact ih seen acc m h
          · simp only [mergeListsAux, if_neg hm] at h
            obtain ⟨ext, hext⟩ := ih _ _ m h
            exact ⟨.jlist l :: ext, by simp [hext]⟩

/-- When every incoming item is already accounted for — a dict item has its
identity key in the seen set, any other item is already in the accumulated
list —
the merge loop appends nothing (or raises, when an identity key is
unhashable; an unhashable key cannot be in the seen set). -/
theorem mergeListsAux_absorbed (new : List JValue) :
    ∀ (seen : List (Option JValue)) (acc : List JValue),
      (∀ it ∈ new,
        (∀ fs, it = JValue.dict fs → lookupStr fs "example" ∈ seen) ∧
        ((∀ fs, it ≠ JValue.dict fs) → it ∈ acc)) →
      mergeListsAux seen acc new = .ok acc ∨
        ∃ e, mergeListsAux seen acc new = .error e := by
  induction new with
  | nil => intro seen acc _; exact Or.inl rfl
  | cons it rest ih =>
      intro seen acc hall
      have hhead := hall it (List.mem_cons_self it rest)
      have htail : ∀ it2 ∈ rest,
          (∀ fs, it2 = JValue.dict fs → lookupStr fs "example" ∈ seen) ∧
          ((∀ fs, it2 ≠ JValue.dict fs) → it2 ∈ acc) :=
        fun it2 h2 => hall it2 (List.mem_cons_of_mem it h2)
      cases it with
      | dict fs =>
          have hm : lookupStr fs "example" ∈ seen := hhead.1 fs rfl
          by_cases hh : hashableOpt (lookupStr fs "example") = true
          · simp only [mergeListsAux, if_pos hh, if_pos hm]
            exact ih seen acc htail
          · exact Or.inr ⟨.typeError, by simp [mergeListsAux, hh]⟩
      | s v =>
          have hm : JValue.s v ∈ acc := hhead.2 (by intro fs h; cases h)
          simp only [mergeListsAux, if_pos hm]
          exact ih seen acc htail
      | jlist l =>
          have hm : JValue.jlist l ∈ acc := hhead.2 (by intro fs h; cases h)
          simp only [mergeListsAux, if_pos hm]
          exact ih seen acc htail

/-- After a successful merge, the identity key of every incoming dict item is
either in the initial seen set or among the entry keys of the merged list, and
every other incoming item is in the merged list. -/
theorem mergeListsAux_post (new : List JValue) :
    ∀ (seen : List (Option JValue)) (acc m : List JValue),
      mergeListsAux seen acc new = .ok m →
      ∀ it ∈ new,
        (∀ fs, it = JValue.dict fs →
          lookupStr fs "example" ∈ seen ∨ lookupStr fs "example" ∈ dictEntryKeys m) ∧
        ((∀ fs, it ≠ JValue.dict fs) → it ∈ m) := by
  induction new with
  | nil => intro seen acc m _ it hit; simp at hit
  | cons it0 rest ih =>
      intro seen acc m h it hit
      cases it0 with
      | dict fs0 =>
          by_cases hh : hashableOpt (lookupStr fs0 "example") = true
          · by_cases hm : lookupStr fs0 "example" ∈ seen
            · simp only [mergeListsAux, if_pos hh, if_pos hm] at h
              rcases List.mem_cons.mp hit with rfl | hit2
              · exact ⟨fun fs heq => by cases heq; exact Or.inl hm,
                  fun hno => absurd rfl (hno fs0)⟩
              · exact ih seen acc m h it hit2
            · simp only [mergeListsAux, if_pos hh, if_neg hm] at h
              obtain ⟨ext, hext⟩ := mergeListsAux_appends rest _ _ m h
              have hself : JValue.dict fs0 ∈ m := by
                rw [hext]; simp
              rcases List.mem_cons.mp hit with rfl | hit2
              · exact ⟨fun fs heq => by
                    cases heq
                    exact Or.inr (mem_dictEntryKeys_of_mem m fs0 hself),
                  fun hno => absurd rfl (hno fs0)⟩
              · have hr := ih _ _ m h it hit2
                refine ⟨fun fs heq => ?_, hr.2⟩
                rcases hr.1 fs heq with hs | hs
                · rcases List.mem_cons.mp hs with he | hs2
                  · refine Or.inr ?_
                    rw [he]
                    exact mem_dictEntryKeys_of_mem m fs0 hself
                  · exact Or.inl hs2
                · exact Or.inr hs
          · simp [mergeListsAux, hh] at h
      | s v =>
          by_cases hm : JValue.s v ∈ acc
          · simp only [mergeListsAux, if_pos hm] at h
            rcases List.mem_cons.mp hit with rfl | hit2
            · refine ⟨fun fs heq => JValue.noConfusion heq, fun _ => ?_⟩
              obtain ⟨ext, hext⟩ := mergeListsAux_appends rest _ _ m h
              rw [hext]
              exact List.mem_append_left ext hm
            · exact ih seen acc m h it hit2
          · simp only [mergeListsAux, if_neg hm] at h
            rcases List.mem_cons.mp hit with rfl | hit2
            · refine ⟨fun fs heq => JValue.noConfusion heq, fun _ => ?_⟩
              obtain ⟨ext, hext⟩ := mergeListsAux_appends rest _ _ m h
              rw [hext]; simp
            · exact ih _ _ m h it hit2
      | jlist l =>
          by_cases hm : JValue.jlist l ∈ acc
          · simp only [mergeListsAux, if_pos hm] at h
            rcases List.mem_cons.mp hit with rfl | hit2
            · refine ⟨fun fs heq => JValue.noConfusion heq, fun _ => ?_⟩
              obtain ⟨ext, hext⟩ := mergeListsAux_appends rest _ _ m h
              rw [hext]
              exact List.mem_append_left ext hm
            · exact ih seen acc m h it hit2
          · simp only [mergeListsAux, if_neg hm] at h
            rcases List.mem_cons.mp hit with rfl | hit2
            · refine ⟨fun fs heq => JValue.noConfusion heq, fun _ => ?_⟩
              obtain ⟨ext, hext⟩ := mergeListsAux_appends rest _ _ m h
              rw [hext]; simp
            · exact ih _ _ m h it hit2

/-- The merge loop preserves duplicate-freeness of the identity keys of the
accumulated list, provided the seen set covers those keys. -/
theorem mergeListsAux_nodup_keys (new : List JValue) :
    ∀ (seen : List (Option JValue)) (acc m : List JValue),
      (dictEntryKeys acc).Nodup →
      (∀ k ∈ dictEntryKeys acc, k ∈ seen) →
      mergeListsAux seen acc new = .ok m →
      (dictEntryKeys m).Nodup := by
  induction new with
  | nil =>
      intro seen acc m hnd _ h
      simp only [mergeListsAux, Except.ok.injEq] at h
      exact h ▸ hnd
  | cons it rest ih =>
      intro seen acc m hnd hcov h
      cases it with
      | dict fs =>
          by_cases hh : hashableOpt (lookupStr fs "example") = true
          · by_cases hm : lookupStr fs "example" ∈ seen
            · simp only [mergeListsAux, if_pos hh, if_pos hm] at h
              exact ih seen acc m hnd hcov h
            · simp only [mergeListsAux, if_pos hh, if_neg hm] at h
              refine ih _ _ m ?_ ?_ h
              · rw [dictEntryKeys_append]
                simp only [dictEntryKeys, List.nodup_append]
                refine ⟨hnd, by simp [dictEntryKeys], ?_⟩
                intro k hk
                simp only [dictEntryKeys, List.mem_singleton, List.not_mem_nil,
                  List.mem_cons, or_false]
                rintro rfl
                exact hm (hcov _ hk)
              · intro k hk
                rw [dictEntryKeys_append] at hk
                rcases List.mem_append.mp hk with hk | hk
                · exact List.mem_cons_of_mem _ (hcov k hk)
                · simp only [dictEntryKeys] at hk
                  rcases List.mem_cons.mp hk with rfl | hk
                  · exact List.mem_cons_self _ seen
                  · simp at hk
          · simp [mergeListsAux, hh] at h
      | s v =>
          by_cases hm : JValue.s v ∈ acc
          · simp only [mergeListsAux, if_pos hm] at h
            exact ih seen acc m hnd hcov h
          · simp only [mergeListsAux, if_neg hm] at h
            refine ih seen _ m ?_ ?_ h
            · simpa [dictEntryKeys_append, dictEntryKeys] using hnd
            · intro k hk
              rw [dictEntryKeys_append] at hk
              simp only [dictEntryKeys, List.append_nil] at hk
              exact hcov k hk
      | jlist l =>
          by_cases hm : JValue.jlist l ∈ acc
          · simp only [mergeListsAux, if_pos hm] at h
            exact ih seen acc m hnd hcov h
          · simp only [mergeListsAux, if_neg hm] at h
            refine ih seen _ m ?_ ?_ h
            · simpa [dictEntryKeys_append, dictEntryKeys] using hnd
            · intro k hk
              rw [dictEntryKeys_append] at hk
              simp only [dictEntryKeys, List.append_nil] at hk
              exact hcov k hk

theorem mergeIntoDict_ok (new : List JValue) (fs : List (String × JValue)) (w : JValue)
    (h : mergeIntoDict fs new = .ok w) : w = .dict fs := by
  induction new with
  | nil => simpa [mergeIntoDict] using h.symm
  | cons it rest ih =>
      cases it with
      | dict g =>
          by_cases hh : hashableOpt (lookupStr g "example") = true <;>
            simp [mergeIntoDict, hh] at h
      | s v =>
          by_cases hc : containsKey fs v = true
          · simp only [mergeIntoDict, if_pos hc] at h
            exact ih h
          · simp [mergeIntoDict, hc] at h
      | jlist l => simp [mergeIntoDict] at h

theorem mergeIntoStr_ok (new : List JValue) (sv : String) (w : JValue)
    (h : mergeIntoStr sv new = .ok w) : w = .s sv := by
  induction new with
  | nil => simpa [mergeIntoStr] using h.symm
  | cons it rest ih =>
      cases it with
      | dict g =>
          by_cases hh : hashableOpt (lookupStr g "example") = true <;>
            simp [mergeIntoStr, hh] at h
      | s v =>
          by_cases hc : strContains sv v = true
          · simp only [mergeIntoStr, if_pos hc] at h
            exact ih h
          · simp [mergeIntoStr, hc] at h
      | jlist l => simp [mergeIntoStr] at h

/-! ### Lemmas: dict merge (`cur.update(inc)`) -/

theorem lookup_pyDictUpdate_notin (inc : List (String × JValue)) :
    ∀ (cur : List (String × JValue)) (k : String), k ∉ inc.map Prod.fst →
      lookupStr (pyDictUpdate cur inc) k = lookupStr cur k := by
  induction inc with
  | nil => intro cur k _; rfl
  | cons kv rest ih =>
      obtain ⟨k0, v0⟩ := kv
      intro cur k hk
      simp only [List.map_cons, List.mem_cons] at hk
      push_neg at hk
      rw [pyDictUpdate, ih _ k hk.2, lookupStr_setKey_ne _ _ _ _ hk.1]

theorem lookup_pyDictUpdate_mem (inc : List (String × JValue)) :
    ∀ (cur : List (String × JValue)) (k : String) (v : JValue),
      (inc.map Prod.fst).Nodup → (k, v) ∈ inc →
      lookupStr (pyDictUpdate cur inc) k = some v := by
  induction inc with
  | nil => intro cur k v _ h; simp at h
  | cons kv rest ih =>
      obtain ⟨k0, v0⟩ := kv
      intro cur k v hnd h
      simp only [List.map_cons, List.nodup_cons] at hnd
      rcases List.mem_cons.mp h with h1 | h1
      · rw [show k = k0 from congrArg Prod.fst h1,
          show v = v0 from congrArg Prod.snd h1, pyDictUpdate,
          lookup_pyDictUpdate_notin rest _ k0 hnd.1, lookupStr_setKey_self]
      · exact ih _ k v hnd.2 h1

theorem pyDictUpdate_id (inc : List (String × JValue)) :
    ∀ (cur : List (String × JValue)),
      (∀ kv ∈ inc, lookupStr cur kv.1 = some kv.2) →
      pyDictUpdate cur inc = cur := by
  induction inc with
  | nil => intro cur _; rfl
  | cons kv rest ih =>
      obtain ⟨k0, v0⟩ := kv
      intro cur hall
      rw [pyDictUpdate,
        setKey_of_lookup_eq cur k0 v0 (hall (k0, v0) (List.mem_cons_self _ rest))]
      exact ih cur (fun kv2 h2 => hall kv2 (List.mem_cons_of_mem _ h2))

/-! ### Lemmas: the merge loop of `update` -/

theorem mergeLists_jlist_ok (xs new : List JValue) (w : JValue)
    (h : mergeLists (.jlist xs) new = .ok w) : ∃ ext, w = .jlist (xs ++ ext) := by
  simp only [mergeLists] at h
  split at h
  next seen hb =>
    split at h
    next m ha =>
      obtain ⟨ext, hext⟩ := mergeListsAux_appends new seen xs m ha
      exact ⟨ext, by rw [← Except.ok.inj h, hext]⟩
    next e ha => exact Except.noConfusion h
  next e hb => exact Except.noConfusion h

theorem updateStep_ok_shape (p : List (String × JValue)) (kv : String × JValue)
    (p2 : List (String × JValue)) (h : updateStep p kv = .ok p2) :
    ∃ w, p2 = setKey p kv.1 w := by
  unfold updateStep at h
  split at h <;>
    first
      | exact ⟨_, (Except.ok.inj h).symm⟩
      | (split at h <;>
          first
            | exact ⟨_, (Except.ok.inj h).symm⟩
            | exact Except.noConfusion h)

theorem updateStep_frame (p : List (String × JValue)) (kv : String × JValue)
    (p2 : List (String × JValue)) (k : String) (h : updateStep p kv = .ok p2)
    (hk : k ≠ kv.1) : lookupStr p2 k = lookupStr p k := by
  obtain ⟨w, rfl⟩ := updateStep_ok_shape p kv p2 h
  exact lookupStr_setKey_ne p kv.1 k w hk

theorem updateStep_contains (p : List (String × JValue)) (kv : String × JValue)
    (p2 : List (String × JValue)) (k : String) (h : updateStep p kv = .ok p2)
    (hc : containsKey p k = true) : containsKey p2 k = true := by
  obtain ⟨w, rfl⟩ := updateStep_ok_shape p kv p2 h
  exact containsKey_mono_setKey p kv.1 k w hc

theorem updateLoop_ok_dict (bs : List (String × JValue)) :
    ∀ (p : List (String × JValue)) (w : JValue),
      updateLoop (.dict p) bs = .ok w → ∃ p2, w = .dict p2 := by
  induction bs with
  | nil => intro p w h; exact ⟨p, (Except.ok.inj h).symm⟩
  | cons kv rest ih =>
      intro p w h
      simp only [updateLoop] at h
      cases hs : updateStep p kv with
      | ok q => rw [hs] at h; exact ih q w h
      | error e => rw [hs] at h; exact Except.noConfusion h

theorem updateLoop_frame (bs : List (String × JValue)) :
    ∀ (p p2 : List (String × JValue)) (k : String),
      updateLoop (.dict p) bs = .ok (.dict p2) →
      (∀ kv ∈ bs, k ≠ kv.1) →
      lookupStr p2 k = lookupStr p k := by
  induction bs with
  | nil =>
      intro p p2 k h _
      injection h with h2
      injection h2 with h3
      rw [← h3]
  | cons kv rest ih =>
      intro p p2 k h hk
      simp only [updateLoop] at h
      cases hs : updateStep p kv with
      | ok q =>
          rw [hs] at h
          rw [ih q p2 k h (fun kv2 h2 => hk kv2 (List.mem_cons_of_mem kv h2)),
            updateStep_frame p kv q k hs (hk kv (List.mem_cons_self kv rest))]
      | error e => rw [hs] at h; exact Except.noConfusion h

theorem updateLoop_contains (bs : List (String × JValue)) :
    ∀ (p p2 : List (String × JValue)) (k : String),
      updateLoop (.dict p) bs = .ok (.dict p2) →
      containsKey p k = true → containsKey p2 k = true := by
  induction bs with
  | nil =>
      intro p p2 k h hc
      injection h with h2
      injection h2 with h3
      rw [← h3]; exact hc
  | cons kv rest ih =>
      intro p p2 k h hc
      simp only [updateLoop] at h
      cases hs : updateStep p kv with
      | ok q =>
          rw [hs] at h
          exact ih q p2 k h (updateStep_contains p kv q k hs hc)
      | error e => rw [hs] at h; exact Except.noConfusion h

/-- Along a successful merge loop, a category that stored a sequence either
still stores that sequence extended only at its end, or some binding for it in
the batch carried a non-sequence value. -/
theorem updateLoop_seq (bs : List (String × JValue)) :
    ∀ (p p2 : List (String × JValue)) (k : String) (xs : List JValue),
      updateLoop (.dict p) bs = .ok (.dict p2) →
      lookupStr p k = some (.jlist xs) →
      (∃ ys, lookupStr p2 k = some (.jlist (xs ++ ys))) ∨
        ∃ v, (k, v) ∈ bs ∧ isJList v = false := by
  induction bs with
  | nil =>
      intro p p2 k xs h hx
      injection h with h2
      injection h2 with h3
      exact Or.inl ⟨[], by rw [← h3, List.append_nil]; exact hx⟩
  | cons kv rest ih =>
      obtain ⟨k0, v0⟩ := kv
      intro p p2 k xs h hx
      simp only [updateLoop] at h
      cases hs : updateStep p (k0, v0) with
      | error e => rw [hs] at h; exact Except.noConfusion h
      | ok q =>
          rw [hs] at h
          by_cases hkk : k = k0
          · subst hkk
            cases v0 with
            | s w => exact Or.inr ⟨.s w, List.mem_cons_self _ rest, rfl⟩
            | dict g =>
                exfalso
                unfold updateStep at hs
                simp only [hx] at hs
                exact Except.noConfusion hs
            | jlist items =>
                unfold updateStep at hs
                simp only [hx] at hs
                cases hm : mergeLists (.jlist xs) items with
                | error e => rw [hm] at hs; exact Except.noConfusion hs
                | ok w =>
                    rw [hm] at hs
                    obtain ⟨ext, rfl⟩ := mergeLists_jlist_ok xs items w hm
                    have hq : q = setKey p k (.jlist (xs ++ ext)) :=
                      (Except.ok.inj hs).symm
                    have hq2 : lookupStr q k = some (.jlist (xs ++ ext)) := by
                      rw [hq]; exact lookupStr_setKey_self p k _
                    rcases ih q p2 k (xs ++ ext) h hq2 with ⟨ys, hys⟩ | ⟨v, hv, hvl⟩
                    · exact Or.inl ⟨ext ++ ys, by rw [← List.append_assoc]; exact hys⟩
                    · exact Or.inr ⟨v, List.mem_cons_of_mem _ hv, hvl⟩
          · have hq : lookupStr q k = some (.jlist xs) := by
              rw [updateStep_frame p (k0, v0) q k hs hkk]; exact hx
            rcases ih q p2 k xs h hq with hl | ⟨v, hv, hvl⟩
            · exact Or.inl hl
            · exact Or.inr ⟨v, List.mem_cons_of_mem _ hv, hvl⟩

/-! ### Evaluation lemmas for `updateStep` -/

theorem updateStep_s (p : List (String × JValue)) (k : String) (w : String) :
    updateStep p (k, .s w) = .ok (setKey p k (.s w)) := by
  rcases hl : lookupStr p k with _ | ex <;> simp [updateStep, hl]

theorem updateStep_new (p : List (String × JValue)) (k : String) (v : JValue)
    (hl : lookupStr p k = none) : updateStep p (k, v) = .ok (setKey p k v) := by
  cases v <;> simp [updateStep, hl]

theorem updateStep_dict_merge (p : List (String × JValue)) (k : String)
    (cur g : List (String × JValue)) (hl : lookupStr p k = some (.dict cur)) :
    updateStep p (k, .dict g) = .ok (setKey p k (.dict (pyDictUpdate cur g))) := by
  simp [updateStep, hl]

theorem updateStep_list_merge (p : List (String × JValue)) (k : String)
    (ex : JValue) (items : List JValue) (hl : lookupStr p k = some ex) :
    updateStep p (k, .jlist items) =
      match mergeLists ex items with
      | .ok m => .ok (setKey p k m)
      | .error e => .error e := by
  simp [updateStep, hl]

/-! ### Idempotence of the merge loop on its own output -/

theorem mergeLists_self_absorbed (xs new : List JValue) (w : JValue)
    (hpre : ∀ it ∈ new,
      (∀ fs, it = JValue.dict fs → lookupStr fs "example" ∈ dictEntryKeys xs) ∧
      ((∀ fs, it ≠ JValue.dict fs) → it ∈ xs))
    (h : mergeLists (.jlist xs) new = .ok w) : w = .jlist xs := by
  simp only [mergeLists] at h
  split at h
  next seen hb =>
    have hseen : seen = dictEntryKeys xs := buildSeen_ok xs seen hb
    split at h
    next mm ha =>
      subst hseen
      rcases mergeListsAux_absorbed new (dictEntryKeys xs) xs hpre with habs | ⟨e, habs⟩
      · rw [habs] at ha
        rw [← Except.ok.inj h, Except.ok.inj ha]
      · rw [habs] at ha; exact Except.noConfusion ha
    next e ha => exact Except.noConfusion h
  next e hb => exact Except.noConfusion h

/-- A merge of a batch into its own merge result absorbs the whole batch. -/
theorem mergeLists_post_self (xs items : List JValue) (m1 : List JValue)
    (h : mergeLists (.jlist xs) items = .ok (.jlist m1))
    (hm : ∃ ext, m1 = xs ++ ext) :
    ∀ it ∈ items,
      (∀ fs, it = JValue.dict fs → lookupStr fs "example" ∈ dictEntryKeys m1) ∧
      ((∀ fs, it ≠ JValue.dict fs) → it ∈ m1) := by
  obtain ⟨ext, hext⟩ := hm
  simp only [mergeLists] at h
  split at h
  next seen hb =>
    have hseen : seen = dictEntryKeys xs := buildSeen_ok xs seen hb
    split at h
    next mm ha =>
      have hmm : mm = m1 := JValue.jlist.inj (Except.ok.inj h)
      rw [hmm] at ha
      subst hseen
      intro it hit
      have hpost := mergeListsAux_post items (dictEntryKeys xs) xs m1 ha it hit
      refine ⟨fun fs heq => ?_, hpost.2⟩
      rcases hpost.1 fs heq with hs | hs
      · rw [hext, dictEntryKeys_append]
        exact List.mem_append_left _ hs
      · exact hs
    next e ha => exact Except.noConfusion h
  next e hb => exact Except.noConfusion h

/-- Re-running one merge-loop step with the same binding on any patterns
state that carries the value the first run produced changes nothing. -/
theorem updateStep_stable (p pA pB pC : List (String × JValue)) (k : String) (v : JValue)
    (hv : ∀ g, v = JValue.dict g → (g.map Prod.fst).Nodup)
    (h1 : updateStep p (k, v) = .ok pA)
    (hB : lookupStr pB k = lookupStr pA k)
    (h2 : updateStep pB (k, v) = .ok pC) : pC = pB := by
  cases v with
  | s w =>
      rw [updateStep_s p k w] at h1
      have hpA : pA = setKey p k (.s w) := (Except.ok.inj h1).symm
      have hlB : lookupStr pB k = some (.s w) := by
        rw [hB, hpA, lookupStr_setKey_self]
      rw [updateStep_s pB k w] at h2
      rw [← Except.ok.inj h2, setKey_of_lookup_eq pB k (.s w) hlB]
  | dict g =>
      have hgnd : (g.map Prod.fst).Nodup := hv g rfl
      rcases hl : lookupStr p k with _ | ex
      · rw [updateStep_new p k (.dict g) hl] at h1
        have hpA : pA = setKey p k (.dict g) := (Except.ok.inj h1).symm
        have hlB : lookupStr pB k = some (.dict g) := by
          rw [hB, hpA, lookupStr_setKey_self]
        rw [updateStep_dict_merge pB k g g hlB] at h2
        have hid : pyDictUpdate g g = g :=
          pyDictUpdate_id g g (fun kv hkv => lookupStr_of_mem_nodup g kv.1 kv.2 hgnd hkv)
        rw [← Except.ok.inj h2, hid, setKey_of_lookup_eq pB k (.dict g) hlB]
      · cases ex with
        | dict cur =>
            rw [updateStep_dict_merge p k cur g hl] at h1
            have hpA : pA = setKey p k (.dict (pyDictUpdate cur g)) := (Except.ok.inj h1).symm
            have hlB : lookupStr pB k = some (.dict (pyDictUpdate cur g)) := by
              rw [hB, hpA, lookupStr_setKey_self]
            rw [updateStep_dict_merge pB k (pyDictUpdate cur g) g hlB] at h2
            have hid : pyDictUpdate (pyDictUpdate cur g) g = pyDictUpdate cur g :=
              pyDictUpdate_id g (pyDictUpdate cur g)
                (fun kv hkv => lookup_pyDictUpdate_mem g cur kv.1 kv.2 hgnd hkv)
            rw [← Except.ok.inj h2, hid, setKey_of_lookup_eq pB k _ hlB]
        | jlist xs => simp [updateStep, hl] at h1
        | s sv => simp [updateStep, hl] at h1
  | jlist items =>
      rcases hl : lookupStr p k with _ | ex
      · rw [updateStep_new p k (.jlist items) hl] at h1
        have hpA : pA = setKey p k (.jlist items) := (Except.ok.inj h1).symm
        have hlB : lookupStr pB k = some (.jlist items) := by
          rw [hB, hpA, lookupStr_setKey_self]
        rw [updateStep_list_merge pB k (.jlist items) items hlB] at h2
        cases hm : mergeLists (.jlist items) items with
        | error e => rw [hm] at h2; exact Except.noConfusion h2
        | ok w =>
            rw [hm] at h2
            have hw : w = .jlist items := by
              refine mergeLists_self_absorbed items items w (fun it hit => ⟨?_, ?_⟩) hm
              · intro fsi heq
                rw [heq] at hit
                exact mem_dictEntryKeys_of_mem items fsi hit
              · intro _; exact hit
            rw [← Except.ok.inj h2, hw, setKey_of_lookup_eq pB k (.jlist items) hlB]
      · cases ex with
        | jlist xs =>
            rw [updateStep_list_merge p k (.jlist xs) items hl] at h1
            cases hm1 : mergeLists (.jlist xs) items with
            | error e => rw [hm1] at h1; exact Except.noConfusion h1
            | ok w1 =>
                rw [hm1] at h1
                obtain ⟨ext, hext⟩ := mergeLists_jlist_ok xs items w1 hm1
                have hpA : pA = setKey p k w1 := (Except.ok.inj h1).symm
                have hlB : lookupStr pB k = some (.jlist (xs ++ ext)) := by
                  rw [hB, hpA, hext, lookupStr_setKey_self]
                rw [updateStep_list_merge pB k (.jlist (xs ++ ext)) items hlB] at h2
                cases hm2 : mergeLists (.jlist (xs ++ ext)) items with
                | error e => rw [hm2] at h2; exact Except.noConfusion h2
                | ok w2 =>
                    rw [hm2] at h2
                    have hpre := mergeLists_post_self xs items (xs ++ ext)
                      (hext ▸ hm1) ⟨ext, rfl⟩
                    have hw2 : w2 = .jlist (xs ++ ext) :=
                      mergeLists_self_absorbed (xs ++ ext) items w2 hpre hm2
                    rw [← Except.ok.inj h2, hw2,
                      setKey_of_lookup_eq pB k (.jlist (xs ++ ext)) hlB]
        | dict cur =>
            rw [updateStep_list_merge p k (.dict cur) items hl] at h1
            cases hm1 : mergeLists (.dict cur) items with
            | error e => rw [hm1] at h1; exact Except.noConfusion h1
            | ok w1 =>
                rw [hm1] at h1
                have hw1 : w1 = .dict cur := mergeIntoDict_ok items cur w1 hm1
                have hpA : pA = setKey p k (.dict cur) := by
                  rw [← Except.ok.inj h1, hw1]
                have hlB : lookupStr pB k = some (.dict cur) := by
                  rw [hB, hpA, lookupStr_setKey_self]
                rw [updateStep_list_merge pB k (.dict cur) items hlB] at h2
                rw [hm1, hw1] at h2
                rw [← Except.ok.inj h2, setKey_of_lookup_eq pB k (.dict cur) hlB]
        | s sv =>
            rw [updateStep_list_merge p k (.s sv) items hl] at h1
            cases hm1 : mergeLists (.s sv) items with
            | error e => rw [hm1] at h1; exact Except.noConfusion h1
            | ok w1 =>
                rw [hm1] at h1
                have hw1 : w1 = .s sv := mergeIntoStr_ok items sv w1 hm1
                have hpA : pA = setKey p k (.s sv) := by
                  rw [← Except.ok.inj h1, hw1]
                have hlB : lookupStr pB k = some (.s sv) := by
                  rw [hB, hpA, lookupStr_setKey_self]
                rw [updateStep_list_merge pB k (.s sv) items hlB] at h2
                rw [hm1, hw1] at h2
                rw [← Except.ok.inj h2, setKey_of_lookup_eq pB k (.s sv) hlB]

/-- Re-running the whole merge loop with the same batch on its own output
changes nothing, provided the batch has no duplicate category keys and its
mapping-shaped values have no duplicate attribute keys. -/
theorem updateLoop_stable (bs : List (String × JValue)) :
    ∀ (p p1 q : List (String × JValue)),
      (bs.map Prod.fst).Nodup →
      (∀ k g, (k, JValue.dict g) ∈ bs → (g.map Prod.fst).Nodup) →
      updateLoop (.dict p) bs = .ok (.dict p1) →
      updateLoop (.dict p1) bs = .ok (.dict q) → q = p1 := by
  induction bs with
  | nil =>
      intro p p1 q _ _ _ h2
      injection h2 with h3
      injection h3 with h4
      exact h4.symm
  | cons kv rest ih =>
      obtain ⟨k0, v0⟩ := kv
      intro p p1 q hnd hv h1 h2
      simp only [List.map_cons, List.nodup_cons] at hnd
      simp only [updateLoop] at h1 h2
      cases hs1 : updateStep p (k0, v0) with
      | error e => rw [hs1] at h1; exact Except.noConfusion h1
      | ok pA =>
          rw [hs1] at h1
          cases hs2 : updateStep p1 (k0, v0) with
          | error e => rw [hs2] at h2; exact Except.noConfusion h2
          | ok pC =>
              rw [hs2] at h2
              have hfr : lookupStr p1 k0 = lookupStr pA k0 :=
                updateLoop_frame rest pA p1 k0 h1
                  (fun kv2 hm2 he =>
                    hnd.1 (he ▸ List.mem_map.mpr ⟨kv2, hm2, rfl⟩))
              have hstab : pC = p1 :=
                updateStep_stable p pA p1 pC k0 v0
                  (fun g hg => hv k0 g (by rw [← hg]; exact List.mem_cons_self _ rest))
                  hs1 hfr hs2
              rw [hstab] at h2
              exact ih pA p1 q hnd.2
                (fun k g hm => hv k g (List.mem_cons_of_mem _ hm)) h1 h2

/-! ### Inversion of a successful `update` -/

theorem lookupStr_metaFields_sources (fields0 : List (String × JValue)) (t : String)
    (cur : List JValue) (S : List String) :
    lookupStr (metaFields fields0 t cur S) "sources" =
      some (.jlist (dedupFirst [] (cur ++ S.map JValue.s))) := by
  unfold metaFields ensurePatterns
  split
  · exact lookupStr_setKey_self _ _ _
  · rw [lookupStr_setKey_ne _ _ _ _ (by decide)]
    exact lookupStr_setKey_self _ _ _

theorem containsKey_metaFields_patterns (fields0 : List (String × JValue)) (t : String)
    (cur : List JValue) (S : List String) :
    containsKey (metaFields fields0 t cur S) "patterns" = true := by
  unfold metaFields ensurePatterns
  split
  next hc => exact hc
  next hc => exact containsKey_setKey_self _ _ _

theorem lookupStr_metaFields_ne (fields0 : List (String × JValue)) (t : String)
    (cur : List JValue) (S : List String) (k : String)
    (h1 : k ≠ "updated_at") (h2 : k ≠ "sources") (h3 : k ≠ "patterns") :
    lookupStr (metaFields fields0 t cur S) k = lookupStr fields0 k := by
  unfold metaFields ensurePatterns
  split
  · rw [lookupStr_setKey_ne _ _ _ _ h2, lookupStr_setKey_ne _ _ _ _ h1]
  · rw [lookupStr_setKey_ne _ _ _ _ h3, lookupStr_setKey_ne _ _ _ _ h2,
      lookupStr_setKey_ne _ _ _ _ h1]

theorem lookup_final_updated (mf : List (String × JValue)) (t : String) (pats : JValue) :
    lookupStr (setKey (setKey mf "patterns" pats) "updated_at" (.s t)) "updated_at" =
      some (.s t) :=
  lookupStr_setKey_self _ _ _

theorem lookup_final_patterns (mf : List (String × JValue)) (t : String) (pats : JValue) :
    lookupStr (setKey (setKey mf "patterns" pats) "updated_at" (.s t)) "patterns" =
      some pats := by
  rw [lookupStr_setKey_ne _ _ _ _ (by decide)]
  exact lookupStr_setKey_self _ _ _

theorem lookup_final_sources (fields0 : List (String × JValue)) (t : String)
    (cur : List JValue) (S : List String) (pats : JValue) :
    lookupStr (setKey (setKey (metaFields fields0 t cur S) "patterns" pats)
        "updated_at" (.s t)) "sources" =
      some (.jlist (dedupFirst [] (cur ++ S.map JValue.s))) := by
  rw [lookupStr_setKey_ne _ _ _ _ (by decide), lookupStr_setKey_ne _ _ _ _ (by decide)]
  exact lookupStr_metaFields_sources fields0 t cur S

theorem update_ok_inv (fs : FileState) (t : String) (P : List (String × JValue))
    (S : List String) (r : FileState × JValue)
    (h : update fs t P S = .ok r) :
    ∃ fields0 cur patsV2,
      load fs t = .ok (.dict fields0) ∧
      dictGetD (setKey fields0 "updated_at" (.s t)) "sources" (.jlist []) = .jlist cur ∧
      cur.all hashable = true ∧
      updateLoop ((lookupStr (metaFields fields0 t cur S) "patterns").getD (.dict [])) P
        = .ok patsV2 ∧
      r = (.valid (.dict (setKey (setKey (metaFields fields0 t cur S) "patterns" patsV2)
            "updated_at" (.s t))),
          .dict (setKey (setKey (metaFields fields0 t cur S) "patterns" patsV2)
            "updated_at" (.s t))) := by
  unfold update at h
  split at h <;> try exact Except.noConfusion h
  split at h <;> try exact Except.noConfusion h
  split at h <;> try exact Except.noConfusion h
  split at h <;> try exact Except.noConfusion h
  split at h <;> try exact Except.noConfusion h
  simp only [saveFS, save] at h
  refine ⟨_, _, _, ?_, ?_, ?_, ?_, (Except.ok.inj h).symm⟩ <;> assumption

theorem updateLoop_cons_dict (pv : JValue) (kv : String × JValue)
    (bs : List (String × JValue)) (w : JValue)
    (h : updateLoop pv (kv :: bs) = .ok w) : ∃ p, pv = .dict p := by
  simp only [updateLoop] at h
  cases pv with
  | dict p => exact ⟨p, rfl⟩
  | s v => exact Except.noConfusion h
  | jlist l => exact Except.noConfusion h

theorem lookupStr_metaFields_patterns (fields0 : List (String × JValue)) (t : String)
    (cur : List JValue) (S : List String) (pv : JValue)
    (hp : lookupStr fields0 "patterns" = some pv) :
    lookupStr (metaFields fields0 t cur S) "patterns" = some pv := by
  have hx : lookupStr (setKey (setKey fields0 "updated_at" (.s t)) "sources"
      (.jlist (dedupFirst [] (cur ++ S.map JValue.s)))) "patterns" = some pv := by
    rw [lookupStr_setKey_ne _ _ _ _ (by decide), lookupStr_setKey_ne _ _ _ _ (by decide)]
    exact hp
  unfold metaFields ensurePatterns
  split
  next hc => exact hx
  next hc => exact absurd (by simp [containsKey, hx]) hc

/-! ### The claims -/

/-- C2: `load` on a missing backing file returns the freshly scaffolded empty
collection — version "1.0", empty sources, empty patterns, both timestamps
set to now — and this is not an error; `load` on an existing but malformed
file fails with the parse error propagated unchanged to the caller
(`load` performs no write, so the stored file is untouched by construction). -/
theorem C2_load_missing_scaffold_corrupt_fatal (t : String) :
    load FileState.missing t = .ok (emptyPatterns t) ∧
    lookupStr (rootFields (emptyPatterns t)) "version" = some (.s "1.0") ∧
    lookupStr (rootFields (emptyPatterns t)) "sources" = some (.jlist []) ∧
    lookupStr (rootFields (emptyPatterns t)) "patterns" = some (.dict []) ∧
    lookupStr (rootFields (emptyPatterns t)) "created_at" = some (.s t) ∧
    lookupStr (rootFields (emptyPatterns t)) "updated_at" = some (.s t) ∧
    load FileState.corrupt t = .error .jsonDecodeError := by
  refine ⟨rfl, ?_, ?_, ?_, ?_, ?_, rfl⟩ <;>
    simp [rootFields, emptyPatterns, lookupStr]

/-- C8: `clear` is exactly the save of the empty scaffold, and after it a
`load` returns a collection with an empty patterns mapping and an empty
sources sequence; `clear` reads nothing from the prior store state, so this
holds for every prior state. -/
theorem C8_clear_resets (t t2 : String) :
    clear t = saveFS t (emptyPatterns t) ∧
    clear t = .ok (.valid (emptyPatterns t), emptyPatterns t) ∧
    load (.valid (emptyPatterns t)) t2 = .ok (emptyPatterns t) ∧
    lookupStr (rootFields (emptyPatterns t)) "patterns" = some (.dict []) ∧
    lookupStr (rootFields (emptyPatterns t)) "sources" = some (.jlist []) := by
  refine ⟨rfl, ?_, rfl, ?_, ?_⟩
  · simp [clear, saveFS, save, emptyPatterns, setKey]
  · simp [rootFields, emptyPatterns, lookupStr]
  · simp [rootFields, emptyPatterns, lookupStr]

/-- C1 (counterexample): the shape-replace example of the spec does not replace:
storing `topics` as a sequence and then updating it with a mapping makes
`update` raise `AttributeError` (Python lists have no `.update`), so no
collection with `topics == {"primary": "x"}` is produced. -/
theorem C1_counterexample :
    (do
      let r1 ← update FileState.missing "t1"
        [("topics", JValue.jlist [JValue.s "x", JValue.s "y"])] []
      update r1.1 "t2" [("topics", JValue.dict [("primary", JValue.s "x")])] []) =
      Except.error PyErr.attributeError := by
  decide

/-- C1 (amended): the merge dispatch of `update` keys on the incoming
value shape alone: a category that is new, or whose incoming value is
scalar-shaped, is set to the incoming value wholesale; but a category that
stores a sequence and receives a mapping-shaped value makes `update` raise
`AttributeError` instead of replacing. -/
theorem C1_amended_dispatch (p : List (String × JValue)) (k : String) (v : JValue) :
    (lookupStr p k = none → updateStep p (k, v) = .ok (setKey p k v)) ∧
    (∀ w, v = JValue.s w → updateStep p (k, v) = .ok (setKey p k v)) ∧
    (∀ xs g, lookupStr p k = some (.jlist xs) → v = JValue.dict g →
      updateStep p (k, v) = .error .attributeError) := by
  refine ⟨fun hl => updateStep_new p k v hl, fun w hw => ?_, fun xs g hl hv => ?_⟩
  · rw [hw]; exact updateStep_s p k w
  · rw [hv]; simp [updateStep, hl]

theorem C1_amended_dispatch_witness :
    updateStep [] ("topics", JValue.jlist [JValue.s "x"]) =
      .ok (setKey [] "topics" (JValue.jlist [JValue.s "x"])) ∧
    updateStep [("topics", JValue.jlist [JValue.s "x", JValue.s "y"])]
      ("topics", JValue.dict [("primary", JValue.s "x")]) = .error .attributeError :=
  ⟨(C1_amended_dispatch [] "topics" (JValue.jlist [JValue.s "x"])).1 rfl,
   (C1_amended_dispatch [("topics", JValue.jlist [JValue.s "x", JValue.s "y"])] "topics"
      (JValue.dict [("primary", JValue.s "x")])).2.2 [JValue.s "x", JValue.s "y"]
      [("primary", JValue.s "x")] (by decide) rfl⟩

theorem nonNullExampleKeys_eq_filterMap (xs : List JValue) :
    nonNullExampleKeys xs = (dictEntryKeys xs).filterMap id := by
  induction xs with
  | nil => simp [nonNullExampleKeys, dictEntryKeys]
  | cons x rest ih =>
      cases x with
      | s v => simp [nonNullExampleKeys, dictEntryKeys, ih]
      | jlist l => simp [nonNullExampleKeys, dictEntryKeys, ih]
      | dict fs =>
          cases hk : lookupStr fs "example" with
          | none => simp [nonNullExampleKeys, dictEntryKeys, hk, ih]
          | some k => simp [nonNullExampleKeys, dictEntryKeys, hk, ih]

/-- C3: sequence merge deduplicates by the `example` identity key: the two
hooks batches leave exactly the three entries A, B, C with B not duplicated;
in general, the merge loop rejects an incoming attribute-mapping entry whose
identity key is already seen, and on appending one adds its key to the seen
set, so that later incoming entries with the same key — even within the same
batch — are also rejected. -/
theorem C3_sequence_dedup :
    ((match (do
        let r1 ← update FileState.missing "t1"
          [("hooks", JValue.jlist [JValue.dict [("example", JValue.s "A")],
            JValue.dict [("example", JValue.s "B")]])] ["p1"]
        update r1.1 "t2"
          [("hooks", JValue.jlist [JValue.dict [("example", JValue.s "B")],
            JValue.dict [("example", JValue.s "C")]])] ["p2"]) with
      | .ok r2 => patValue r2.2 "hooks"
      | .error _ => none) =
      some (.jlist [JValue.dict [("example", JValue.s "A")],
        JValue.dict [("example", JValue.s "B")],
        JValue.dict [("example", JValue.s "C")]])) ∧
    (∀ seen acc fs rest, hashableOpt (lookupStr fs "example") = true →
      lookupStr fs "example" ∈ seen →
      mergeListsAux seen acc (JValue.dict fs :: rest) = mergeListsAux seen acc rest) ∧
    (∀ seen acc fs rest, hashableOpt (lookupStr fs "example") = true →
      lookupStr fs "example" ∉ seen →
      mergeListsAux seen acc (JValue.dict fs :: rest) =
        mergeListsAux (lookupStr fs "example" :: seen) (acc ++ [JValue.dict fs]) rest) := by
  refine ⟨by decide, fun seen acc fs rest hh hm => ?_, fun seen acc fs rest hh hm => ?_⟩
  · simp [mergeListsAux, hh, hm]
  · simp [mergeListsAux, hh, hm]

theorem C3_sequence_dedup_witness :
    mergeListsAux [some (JValue.s "A")] [JValue.dict [("example", JValue.s "A")]]
      (JValue.dict [("example", JValue.s "A")] :: []) =
      mergeListsAux [some (JValue.s "A")] [JValue.dict [("example", JValue.s "A")]] [] ∧
    mergeListsAux [some (JValue.s "A")] [JValue.dict [("example", JValue.s "A")]]
      (JValue.dict [("example", JValue.s "B")] :: []) =
      mergeListsAux [some (JValue.s "B"), some (JValue.s "A")]
        ([JValue.dict [("example", JValue.s "A")]] ++ [JValue.dict [("example", JValue.s "B")]])
        [] :=
  ⟨(C3_sequence_dedup.2.1 [some (JValue.s "A")] [JValue.dict [("example", JValue.s "A")]]
      [("example", JValue.s "A")] [] (by decide) (by decide)),
   (C3_sequence_dedup.2.2 [some (JValue.s "A")] [JValue.dict [("example", JValue.s "A")]]
      [("example", JValue.s "B")] [] (by decide) (by decide))⟩

/-- C4: mapping merge — when a category stores an attribute mapping and the
incoming value is mapping-shaped, the stored mapping is updated with the
incoming pairs: keys only in the stored mapping keep their values, keys of
the incoming mapping take the incoming values (incoming wins on collision);
the `tone` example composes `formality` and `voice`. -/
theorem C4_mapping_merge :
    ((match (do
        let r1 ← update FileState.missing "t1"
          [("tone", JValue.dict [("formality", JValue.s "casual")])] []
        update r1.1 "t2" [("tone", JValue.dict [("voice", JValue.s "direct")])] []) with
      | .ok r2 => patValue r2.2 "tone"
      | .error _ => none) =
      some (.dict [("formality", JValue.s "casual"), ("voice", JValue.s "direct")])) ∧
    (∀ p k cur g, lookupStr p k = some (.dict cur) →
      updateStep p (k, .dict g) = .ok (setKey p k (.dict (pyDictUpdate cur g)))) ∧
    (∀ cur g k2 v, (g.map Prod.fst).Nodup → lookupStr g k2 = some v →
      lookupStr (pyDictUpdate cur g) k2 = some v) ∧
    (∀ cur g k2, lookupStr g k2 = none →
      lookupStr (pyDictUpdate cur g) k2 = lookupStr cur k2) := by
  refine ⟨by decide, fun p k cur g hl => updateStep_dict_merge p k cur g hl,
    fun cur g k2 v hnd hv => ?_, fun cur g k2 hv => ?_⟩
  · exact lookup_pyDictUpdate_mem g cur k2 v hnd (lookupStr_mem g k2 v hv)
  · exact lookup_pyDictUpdate_notin g cur k2 ((lookupStr_eq_none_iff g k2).mp hv)

theorem C4_mapping_merge_witness :
    updateStep [("tone", JValue.dict [("formality", JValue.s "casual")])]
      ("tone", JValue.dict [("voice", JValue.s "direct")]) =
      .ok (setKey [("tone", JValue.dict [("formality", JValue.s "casual")])] "tone"
        (.dict (pyDictUpdate [("formality", JValue.s "casual")]
          [("voice", JValue.s "direct")]))) ∧
    lookupStr (pyDictUpdate [("formality", JValue.s "casual")]
      [("voice", JValue.s "direct")]) "voice" = some (JValue.s "direct") ∧
    lookupStr (pyDictUpdate [("formality", JValue.s "casual")]
      [("voice", JValue.s "direct")]) "formality" = some (JValue.s "casual") :=
  ⟨C4_mapping_merge.2.1 [("tone", JValue.dict [("formality", JValue.s "casual")])]
      "tone" [("formality", JValue.s "casual")] [("voice", JValue.s "direct")] (by decide),
   C4_mapping_merge.2.2.1 [("formality", JValue.s "casual")] [("voice", JValue.s "direct")]
      "voice" (JValue.s "direct") (by decide) (by decide),
   C4_mapping_merge.2.2.2 [("formality", JValue.s "casual")] [("voice", JValue.s "direct")]
      "formality" (by decide)⟩

/-- C6 (counterexample): a single `update` on a fresh category takes the
replace branch and stores the incoming batch verbatim, including two
attribute-mapping entries sharing the non-null example value "A" — the
claimed invariant fails on this collection produced by `update`. -/
theorem C6_counterexample :
    update FileState.missing "t1"
      [("hooks", JValue.jlist [JValue.dict [("example", JValue.s "A")],
        JValue.dict [("example", JValue.s "A")]])] [] =
      .ok (.valid (.dict [("version", .s "1.0"), ("created_at", .s "t1"),
          ("updated_at", .s "t1"), ("sources", .jlist []),
          ("patterns", .dict [("hooks", .jlist [JValue.dict [("example", JValue.s "A")],
            JValue.dict [("example", JValue.s "A")]])])]),
        .dict [("version", .s "1.0"), ("created_at", .s "t1"),
          ("updated_at", .s "t1"), ("sources", .jlist []),
          ("patterns", .dict [("hooks", .jlist [JValue.dict [("example", JValue.s "A")],
            JValue.dict [("example", JValue.s "A")]])])]) ∧
    ¬ (nonNullExampleKeys [JValue.dict [("example", JValue.s "A")],
        JValue.dict [("example", JValue.s "A")]]).Nodup := by
  constructor
  · decide
  · decide

/-- C6 (amended): the sequence-merge path does preserve the invariant — if
the existing sequence has no two attribute-mapping entries sharing an
identity key (null included), then after `_merge_lists` the merged sequence
still has none: its non-null example values are pairwise distinct and it
retains at most one keyless attribute-mapping entry. -/
theorem filter_isNone_nil (l : List (Option JValue)) (h : none ∉ l) :
    l.filter (fun k => k.isNone) = [] := by
  induction l with
  | nil => rfl
  | cons x rest ih =>
      cases x with
      | none => exact absurd (List.mem_cons_self _ _) h
      | some v =>
          simp only [List.filter, Option.isNone]
          exact ih (fun hc => h (List.mem_cons_of_mem _ hc))

theorem count_none_le_one (l : List (Option JValue)) (h : l.Nodup) :
    (l.filter (fun k => k.isNone)).length ≤ 1 := by
  induction l with
  | nil => simp
  | cons x rest ih =>
      simp only [List.nodup_cons] at h
      cases x with
      | none =>
          rw [show List.filter (fun k => k.isNone) (none :: rest) =
              none :: List.filter (fun k => k.isNone) rest from by simp [List.filter],
            filter_isNone_nil rest h.1]
          simp
      | some v =>
          have hrec := ih h.2
          simpa [List.filter, Option.isNone] using hrec

theorem C6_merge_preserves_key_uniqueness (xs new m : List JValue)
    (hnd : (dictEntryKeys xs).Nodup)
    (h : mergeLists (.jlist xs) new = .ok (.jlist m)) :
    (dictEntryKeys m).Nodup ∧ (nonNullExampleKeys m).Nodup ∧
    ((dictEntryKeys m).filter (fun k => k.isNone)).length ≤ 1 := by
  have hkeys : (dictEntryKeys m).Nodup := by
    simp only [mergeLists] at h
    split at h
    next seen hb =>
      have hseen : seen = dictEntryKeys xs := buildSeen_ok xs seen hb
      split at h
      next mm ha =>
        have hmm : mm = m := JValue.jlist.inj (Except.ok.inj h)
        rw [hmm] at ha
        subst hseen
        exact mergeListsAux_nodup_keys new (dictEntryKeys xs) xs m hnd
          (fun k hk => hk) ha
      next e ha => exact Except.noConfusion h
    next e hb => exact Except.noConfusion h
  refine ⟨hkeys, ?_, ?_⟩
  · rw [nonNullExampleKeys_eq_filterMap]
    refine List.Nodup.filterMap ?_ hkeys
    intro a a2 b hb hb2
    cases a <;> cases a2 <;> simp_all
  · exact count_none_le_one (dictEntryKeys m) hkeys

theorem C6_merge_preserves_key_uniqueness_witness :
    (dictEntryKeys [JValue.dict [("example", JValue.s "A")],
      JValue.dict [("example", JValue.s "B")]]).Nodup ∧
    (nonNullExampleKeys [JValue.dict [("example", JValue.s "A")],
      JValue.dict [("example", JValue.s "B")]]).Nodup ∧
    ((dictEntryKeys [JValue.dict [("example", JValue.s "A")],
      JValue.dict [("example", JValue.s "B")]]).filter (fun k => k.isNone)).length ≤ 1 :=
  C6_merge_preserves_key_uniqueness [JValue.dict [("example", JValue.s "A")]]
    [JValue.dict [("example", JValue.s "B")]]
    [JValue.dict [("example", JValue.s "A")], JValue.dict [("example", JValue.s "B")]]
    (by decide) (by decide)

/-- C5: for every successful `update`, the resulting stored sources list is
duplicate free and holds exactly the union of the previously stored sources
and the incoming sources. -/
theorem C5_source_union (fs : FileState) (t : String) (P : List (String × JValue))
    (S : List String) (r : FileState × JValue) (doc : JValue)
    (h : update fs t P S = .ok r) (hl : load fs t = .ok doc) :
    (docSources r.2).Nodup ∧
    (∀ v, v ∈ docSources r.2 ↔ v ∈ docSources doc ∨ v ∈ S.map JValue.s) := by
  obtain ⟨fields0, cur, patsV2, hload, hsrc, hhash, hloop, hr⟩ := update_ok_inv fs t P S r h
  have hdoc : doc = .dict fields0 := by rw [hl] at hload; exact Except.ok.inj hload
  have hsrc2 : (lookupStr fields0 "sources").getD (.jlist []) = .jlist cur := by
    rw [← hsrc]
    unfold dictGetD
    rw [lookupStr_setKey_ne _ _ _ _ (by decide)]
  have hcur : docSources doc = cur := by
    rw [hdoc]
    simp only [docSources, rootFields]
    cases hss : lookupStr fields0 "sources" with
    | none =>
        rw [hss] at hsrc2
        simp only [Option.getD] at hsrc2
        exact JValue.jlist.inj hsrc2
    | some w =>
        rw [hss] at hsrc2
        simp only [Option.getD] at hsrc2
        rw [hsrc2]
  have hfin : docSources r.2 = dedupFirst [] (cur ++ S.map JValue.s) := by
    rw [hr]
    simp only [docPatterns, docSources, rootFields,
      lookup_final_sources fields0 t cur S patsV2]
  constructor
  · rw [hfin]; exact nodup_dedupFirst _ _
  · intro v
    rw [hfin, hcur, mem_dedupFirst]
    simp [List.mem_append]

/-- Document reached after `update({}, ["a.md"])` from an empty store at time
`t1` (used to witness the source-union law). -/
def srcDoc1 : JValue :=
  .dict [("version", .s "1.0"), ("created_at", .s "t1"), ("updated_at", .s "t1"),
    ("sources", .jlist [.s "a.md"]), ("patterns", .dict [])]

/-- Document reached from `srcDoc1` by `update({}, ["a.md", "b.md"])` at `t2`. -/
def srcDoc2 : JValue :=
  .dict [("version", .s "1.0"), ("created_at", .s "t1"), ("updated_at", .s "t2"),
    ("sources", .jlist [.s "a.md", .s "b.md"]), ("patterns", .dict [])]

theorem C5_source_union_witness :
    (docSources srcDoc2).Nodup ∧
    (∀ v, v ∈ docSources srcDoc2 ↔
      v ∈ docSources srcDoc1 ∨ v ∈ (["a.md", "b.md"].map JValue.s)) := by
  have h2 : update (FileState.valid srcDoc1) "t2" [] ["a.md", "b.md"] =
      .ok (FileState.valid srcDoc2, srcDoc2) := by decide
  have hl : load (FileState.valid srcDoc1) "t2" = .ok srcDoc1 := rfl
  exact C5_source_union (FileState.valid srcDoc1) "t2" [] ["a.md", "b.md"]
    (FileState.valid srcDoc2, srcDoc2) srcDoc1 h2 hl

/-- C10: frame property of `update` — a category present before the call and
not named in the batch keeps its value; no category is ever removed; and a
category storing a sequence either keeps that sequence extended only at its
end, or some binding for it in the batch carried a non-sequence value (a
sequence merge itself never removes, reorders or overwrites stored entries). -/
theorem C10_update_frame (fs : FileState) (t : String) (P : List (String × JValue))
    (S : List String) (r : FileState × JValue) (doc : JValue)
    (p0 : List (String × JValue))
    (h : update fs t P S = .ok r) (hl : load fs t = .ok doc)
    (hp : lookupStr (rootFields doc) "patterns" = some (.dict p0)) :
    (∀ k, (∀ v, (k, v) ∉ P) → lookupStr (docPatterns r.2) k = lookupStr p0 k) ∧
    (∀ k, containsKey p0 k = true → containsKey (docPatterns r.2) k = true) ∧
    (∀ k xs, lookupStr p0 k = some (.jlist xs) →
      (∃ ys, lookupStr (docPatterns r.2) k = some (.jlist (xs ++ ys))) ∨
        ∃ v, (k, v) ∈ P ∧ isJList v = false) := by
  obtain ⟨fields0, cur, patsV2, hload, hsrc, hhash, hloop, hr⟩ := update_ok_inv fs t P S r h
  have hdoc : doc = .dict fields0 := by rw [hl] at hload; exact Except.ok.inj hload
  have hp0 : lookupStr fields0 "patterns" = some (.dict p0) := by
    rw [hdoc] at hp
    simpa [rootFields] using hp
  have hmf : lookupStr (metaFields fields0 t cur S) "patterns" = some (.dict p0) :=
    lookupStr_metaFields_patterns fields0 t cur S (.dict p0) hp0
  rw [hmf] at hloop
  simp only [Option.getD] at hloop
  obtain ⟨p2, hp2⟩ := updateLoop_ok_dict P p0 patsV2 hloop
  rw [hp2] at hloop
  have hdp : docPatterns r.2 = p2 := by
    rw [hr]
    simp only [docPatterns, rootFields, lookup_final_patterns, hp2]
  rw [hdp]
  refine ⟨fun k hk => ?_, fun k hk => ?_, fun k xs hk => ?_⟩
  · exact updateLoop_frame P p0 p2 k hloop
      (fun kv hm he => hk kv.2 (by rw [he, Prod.mk.eta]; exact hm))
  · exact updateLoop_contains P p0 p2 k hloop hk
  · exact updateLoop_seq P p0 p2 k xs hloop hk

/-- Store document before the frame-property witness call. -/
def frameDoc1 : JValue :=
  .dict [("version", .s "1.0"), ("created_at", .s "t0"), ("updated_at", .s "t0"),
    ("sources", .jlist []),
    ("patterns", .dict [("keep", .s "x"),
      ("hooks", .jlist [JValue.dict [("example", JValue.s "A")]])])]

/-- Store document after merging `{"hooks": [{"example": "B"}]}` into
`frameDoc1`. -/
def frameDoc2 : JValue :=
  .dict [("version", .s "1.0"), ("created_at", .s "t0"), ("updated_at", .s "t1"),
    ("sources", .jlist []),
    ("patterns", .dict [("keep", .s "x"),
      ("hooks", .jlist [JValue.dict [("example", JValue.s "A")],
        JValue.dict [("example", JValue.s "B")]])])]

theorem C10_update_frame_witness :
    lookupStr (docPatterns frameDoc2) "keep" =
      lookupStr [("keep", JValue.s "x"),
        ("hooks", JValue.jlist [JValue.dict [("example", JValue.s "A")]])] "keep" ∧
    containsKey (docPatterns frameDoc2) "hooks" = true ∧
    ((∃ ys, lookupStr (docPatterns frameDoc2) "hooks" =
        some (.jlist ([JValue.dict [("example", JValue.s "A")]] ++ ys))) ∨
      ∃ v, ("hooks", v) ∈ [("hooks", JValue.jlist [JValue.dict [("example", JValue.s "B")]])] ∧
        isJList v = false) := by
  have h : update (FileState.valid frameDoc1) "t1"
      [("hooks", JValue.jlist [JValue.dict [("example", JValue.s "B")]])] [] =
      .ok (FileState.valid frameDoc2, frameDoc2) := by decide
  have hl : load (FileState.valid frameDoc1) "t1" = .ok frameDoc1 := rfl
  obtain ⟨c1, c2, c3⟩ := C10_update_frame (FileState.valid frameDoc1) "t1"
    [("hooks", JValue.jlist [JValue.dict [("example", JValue.s "B")]])] []
    (FileState.valid frameDoc2, frameDoc2) frameDoc1
    [("keep", JValue.s "x"),
      ("hooks", JValue.jlist [JValue.dict [("example", JValue.s "A")]])] h hl (by decide)
  exact ⟨c1 "keep" (by intro v hv; simp at hv), c2 "hooks" (by decide),
    c3 "hooks" [JValue.dict [("example", JValue.s "A")]] (by decide)⟩

/-- C7: `update` is idempotent — re-running it with the same batch and
sources on its own output reproduces the same file state and document
exactly (so the sources set keeps its size and no sequence-valued category
gains an entry), provided the batch is a well-formed Python dict: no
duplicate category keys, and no duplicate attribute keys inside a
mapping-shaped value. -/
theorem C7_update_idempotent (fs : FileState) (t : String) (P : List (String × JValue))
    (S : List String) (r1 r2 : FileState × JValue)
    (hk : (P.map Prod.fst).Nodup)
    (hv : ∀ k g, (k, JValue.dict g) ∈ P → (g.map Prod.fst).Nodup)
    (h1 : update fs t P S = .ok r1)
    (h2 : update r1.1 t P S = .ok r2) : r2 = r1 := by
  obtain ⟨f0, cur, pv2, _hload, _hsrc, _hhash, hloop, hr1⟩ := update_ok_inv fs t P S r1 h1
  obtain ⟨g0, cur2, pv2b, hload2, hsrc2, _hhash2, hloop2, hr2⟩ := update_ok_inv r1.1 t P S r2 h2
  have hg0 : g0 = setKey (setKey (metaFields f0 t cur S) "patterns" pv2)
      "updated_at" (.s t) := by
    rw [hr1] at hload2
    simp only [load] at hload2
    exact (JValue.dict.inj (Except.ok.inj hload2)).symm
  subst hg0
  have hstamp : setKey (setKey (setKey (metaFields f0 t cur S) "patterns" pv2)
      "updated_at" (.s t)) "updated_at" (JValue.s t) =
      setKey (setKey (metaFields f0 t cur S) "patterns" pv2) "updated_at" (.s t) :=
    setKey_of_lookup_eq _ _ _ (lookup_final_updated (metaFields f0 t cur S) t pv2)
  have hcur2 : cur2 = dedupFirst [] (cur ++ S.map JValue.s) := by
    rw [hstamp] at hsrc2
    unfold dictGetD at hsrc2
    rw [lookup_final_sources f0 t cur S pv2] at hsrc2
    simp only [Option.getD] at hsrc2
    exact (JValue.jlist.inj hsrc2).symm
  subst hcur2
  have hdd2 : dedupFirst []
      (dedupFirst [] (cur ++ S.map JValue.s) ++ S.map JValue.s) =
      dedupFirst [] (cur ++ S.map JValue.s) := by
    have hsub : ∀ a ∈ S.map JValue.s, a ∈ dedupFirst [] (cur ++ S.map JValue.s) := by
      intro a ha
      rw [mem_dedupFirst]
      exact ⟨List.mem_append_right cur ha, by simp⟩
    rw [dedupFirst_append_of_subset [] _ (S.map JValue.s) hsub]
    exact dedupFirst_eq_self _ [] (nodup_dedupFirst [] (cur ++ S.map JValue.s))
      (fun a _ => by simp)
  have hMF2 : metaFields (setKey (setKey (metaFields f0 t cur S) "patterns" pv2)
      "updated_at" (.s t)) t (dedupFirst [] (cur ++ S.map JValue.s)) S =
      setKey (setKey (metaFields f0 t cur S) "patterns" pv2) "updated_at" (.s t) := by
    rw [metaFields]
    rw [hstamp, hdd2,
      setKey_of_lookup_eq _ _ _ (lookup_final_sources f0 t cur S pv2)]
    rw [ensurePatterns]
    rw [if_pos ?hc]
    case hc =>
      simp [containsKey, lookup_final_patterns (metaFields f0 t cur S) t pv2]
  have hloop2b : updateLoop pv2 P = .ok pv2b := by
    rw [hMF2, lookup_final_patterns (metaFields f0 t cur S) t pv2] at hloop2
    simpa using hloop2
  have hpv2b : pv2b = pv2 := by
    cases P with
    | nil =>
        simp only [updateLoop] at hloop2b
        exact (Except.ok.inj hloop2b).symm
    | cons kv rest =>
        obtain ⟨p00, hp00⟩ := updateLoop_cons_dict _ kv rest pv2
          hloop
        rw [hp00] at hloop
        obtain ⟨p2, hp2⟩ := updateLoop_ok_dict (kv :: rest) p00 pv2 hloop
        rw [hp2] at hloop hloop2b
        obtain ⟨q2, hq2⟩ := updateLoop_ok_dict (kv :: rest) p2 pv2b hloop2b
        rw [hq2] at hloop2b ⊢
        rw [updateLoop_stable (kv :: rest) p00 p2 q2 hk hv hloop hloop2b]
        exact hp2.symm
  rw [hpv2b] at hr2
  rw [hr2, hr1, hMF2,
    setKey_of_lookup_eq _ _ _ (lookup_final_patterns (metaFields f0 t cur S) t pv2),
    hstamp]

/-- A store document that `update` maps to itself when fed the batch that
produced it (used to witness idempotence). -/
def idemDoc : JValue :=
  .dict [("version", .s "1.0"), ("created_at", .s "t"), ("updated_at", .s "t"),
    ("sources", .jlist [.s "p1"]),
    ("patterns", .dict [("hooks", .jlist [JValue.dict [("example", JValue.s "A")]])])]

theorem C7_update_idempotent_witness :
    update (FileState.valid idemDoc) "t"
      [("hooks", JValue.jlist [JValue.dict [("example", JValue.s "A")]])] ["p1"] =
      .ok (FileState.valid idemDoc, idemDoc) := by
  have h1 : update FileState.missing "t"
      [("hooks", JValue.jlist [JValue.dict [("example", JValue.s "A")]])] ["p1"] =
      .ok (FileState.valid idemDoc, idemDoc) := by decide
  have h2 : update (FileState.valid idemDoc) "t"
      [("hooks", JValue.jlist [JValue.dict [("example", JValue.s "A")]])] ["p1"] =
      .ok (FileState.valid idemDoc, idemDoc) := by decide
  have h3 := C7_update_idempotent FileState.missing "t"
    [("hooks", JValue.jlist [JValue.dict [("example", JValue.s "A")]])] ["p1"]
    (FileState.valid idemDoc, idemDoc) (FileState.valid idemDoc, idemDoc)
    (by decide)
    (by
      intro k g hm
      simp only [List.mem_singleton] at hm
      exact absurd (congrArg Prod.snd hm) (fun hx => JValue.noConfusion hx))
    h1 h2
  exact h3 ▸ h2

/-! ### The summary claim -/

/-- Fields of a mapping-shaped lookup result (empty otherwise); used only to
phrase the spec-side digest below. -/
def asDictFields : Option JValue → List (String × JValue)
  | some (.dict g) => g
  | _ => []

/-- Elements of a sequence-shaped value (empty otherwise); used only to
phrase the spec-side digest below. -/
def jlistElems : JValue → List JValue
  | .jlist xs => xs
  | _ => []

/-- Comma-separated join of rendered items, as the spec "truncated list"
line renders the first topics. -/
def joinComma : List String → String
  | [] => ""
  | [x] => x
  | x :: y :: rest => x ++ ", " ++ joinComma (y :: rest)

/-- Modelled from the spec (refinement comparator for the summary claim):
the fixed-order digest — source count, last-updated timestamp, a blank line,
then one metric line per known category that is present, in the order hooks,
structure, tone, ctas, topics; categories with other names contribute
nothing. -/
def specSummaryDigest (fields p : List (String × JValue)) : String :=
  String.intercalate "\n"
    (["Sources: " ++ toString (pyLen (dictGetD fields "sources" (.jlist []))) ++
        " posts analyzed",
      "Last updated: " ++ pyStr (dictGetD fields "updated_at" (.s "Never")),
      ""] ++
     (if containsKey p "hooks" then
        ["Hooks: " ++ toString (pyLen ((lookupStr p "hooks").getD (.s ""))) ++ " patterns"]
      else []) ++
     (if containsKey p "structure" then
        ["Avg length: " ++
          pyStr (dictGetD (asDictFields (lookupStr p "structure")) "avg_length" (.s "N/A")) ++
          " words"]
      else []) ++
     (if containsKey p "tone" then
        ["Tone: " ++ pyStr (dictGetD (asDictFields (lookupStr p "tone")) "formality" (.s "N/A"))]
      else []) ++
     (if containsKey p "ctas" then
        ["CTAs: " ++ toString (pyLen ((lookupStr p "ctas").getD (.s ""))) ++ " patterns"]
      else []) ++
     (if containsKey p "topics" then
        ["Topics: " ++
          joinComma (((jlistElems ((lookupStr p "topics").getD (.jlist []))).take 5).map pyStr)]
      else []))

theorem pyJoin_strings : ∀ l : List JValue, (∀ x ∈ l, ∃ sv, x = JValue.s sv) →
    pyJoin ", " l = .ok (joinComma (l.map pyStr))
  | [], _ => rfl
  | [x], h => by
      obtain ⟨sv, rfl⟩ := h x (by simp)
      rfl
  | x :: y :: rest, h => by
      obtain ⟨sv, rfl⟩ := h x (by simp)
      have hr := pyJoin_strings (y :: rest) (fun z hz => h z (List.mem_cons_of_mem _ hz))
      simp only [pyJoin, hr, List.map_cons, joinComma, pyStr]

theorem containsKey_some (p : List (String × JValue)) (k : String)
    (hc : containsKey p k = true) : ∃ v, lookupStr p k = some v := by
  unfold containsKey at hc
  cases hl : lookupStr p k with
  | none => rw [hl] at hc; simp at hc
  | some v => exact ⟨v, rfl⟩

theorem hooksLine_eval (p : List (String × JValue)) :
    hooksLine (.dict p) =
      .ok (if containsKey p "hooks" then
        ["Hooks: " ++ toString (pyLen ((lookupStr p "hooks").getD (.s ""))) ++ " patterns"]
      else []) := by
  by_cases hc : containsKey p "hooks" = true
  · obtain ⟨v, hv⟩ := containsKey_some p "hooks" hc
    simp [hooksLine, pyContains, pyIndex, hc, hv]
  · simp only [Bool.not_eq_true] at hc
    simp [hooksLine, pyContains, hc]

theorem ctasLine_eval (p : List (String × JValue)) :
    ctasLine (.dict p) =
      .ok (if containsKey p "ctas" then
        ["CTAs: " ++ toString (pyLen ((lookupStr p "ctas").getD (.s ""))) ++ " patterns"]
      else []) := by
  by_cases hc : containsKey p "ctas" = true
  · obtain ⟨v, hv⟩ := containsKey_some p "ctas" hc
    simp [ctasLine, pyContains, pyIndex, hc, hv]
  · simp only [Bool.not_eq_true] at hc
    simp [ctasLine, pyContains, hc]

theorem structureLine_eval (p : List (String × JValue))
    (hstruct : ∀ v, lookupStr p "structure" = some v → ∃ g, v = JValue.dict g) :
    structureLine (.dict p) =
      .ok (if containsKey p "structure" then
        ["Avg length: " ++
          pyStr (dictGetD (asDictFields (lookupStr p "structure")) "avg_length" (.s "N/A")) ++
          " words"]
      else []) := by
  by_cases hc : containsKey p "structure" = true
  · obtain ⟨v, hv⟩ := containsKey_some p "structure" hc
    obtain ⟨g, rfl⟩ := hstruct v hv
    simp [structureLine, pyContains, pyIndex, pyGetD, asDictFields, hc, hv]
  · simp only [Bool.not_eq_true] at hc
    simp [structureLine, pyContains, hc]

theorem toneLine_eval (p : List (String × JValue))
    (htone : ∀ v, lookupStr p "tone" = some v → ∃ g, v = JValue.dict g) :
    toneLine (.dict p) =
      .ok (if containsKey p "tone" then
        ["Tone: " ++ pyStr (dictGetD (asDictFields (lookupStr p "tone")) "formality" (.s "N/A"))]
      else []) := by
  by_cases hc : containsKey p "tone" = true
  · obtain ⟨v, hv⟩ := containsKey_some p "tone" hc
    obtain ⟨g, rfl⟩ := htone v hv
    simp [toneLine, pyContains, pyIndex, pyGetD, asDictFields, hc, hv]
  · simp only [Bool.not_eq_true] at hc
    simp [toneLine, pyContains, hc]

theorem topicsLine_eval (p : List (String × JValue))
    (htopics : ∀ v, lookupStr p "topics" = some v →
      ∃ ts, v = JValue.jlist ts ∧ ∀ x ∈ ts, ∃ sv, x = JValue.s sv) :
    topicsLine (.dict p) =
      .ok (if containsKey p "topics" then
        ["Topics: " ++
          joinComma (((jlistElems ((lookupStr p "topics").getD (.jlist []))).take 5).map pyStr)]
      else []) := by
  by_cases hc : containsKey p "topics" = true
  · obtain ⟨v, hv⟩ := containsKey_some p "topics" hc
    obtain ⟨ts, rfl, hstr⟩ := htopics v hv
    have hj := pyJoin_strings (ts.take 5) (fun x hx => hstr x (List.take_subset 5 ts hx))
    simp [topicsLine, pyContains, pyIndex, pySlice5, jlistElems, hc, hv, hj]
  · simp only [Bool.not_eq_true] at hc
    simp [topicsLine, pyContains, hc]

theorem get_summary_digest (fields p : List (String × JValue)) (t : String)
    (hp : lookupStr fields "patterns" = some (.dict p)) (hne : p ≠ [])
    (hstruct : ∀ v, lookupStr p "structure" = some v → ∃ g, v = JValue.dict g)
    (htone : ∀ v, lookupStr p "tone" = some v → ∃ g, v = JValue.dict g)
    (htopics : ∀ v, lookupStr p "topics" = some v →
      ∃ ts, v = JValue.jlist ts ∧ ∀ x ∈ ts, ∃ sv, x = JValue.s sv) :
    get_summary (.valid (.dict fields)) t = .ok (some (specSummaryDigest fields p)) := by
  have htr : truthy (.dict p) = true := by simp [truthy, hne]
  simp only [get_summary, load, hp, htr, if_pos, hooksLine_eval p,
    structureLine_eval p hstruct, toneLine_eval p htone, ctasLine_eval p,
    topicsLine_eval p htopics, specSummaryDigest]

/-- C9: the summary projection returns absent exactly when the stored
patterns mapping is empty; otherwise it returns the fixed-order digest
beginning with the source count and the last-updated timestamp, followed by
one metric line per known category name (hooks, structure, tone, ctas,
topics) only for those present, while any category under another name
contributes nothing to the digest.  The stored structure/tone values are
assumed mapping-shaped and topics sequence-of-strings-shaped where present
(otherwise the code raises instead of summarising). -/
theorem C9_summary_projection (fields p : List (String × JValue)) (t : String)
    (hp : lookupStr fields "patterns" = some (.dict p))
    (hstruct : ∀ v, lookupStr p "structure" = some v → ∃ g, v = JValue.dict g)
    (htone : ∀ v, lookupStr p "tone" = some v → ∃ g, v = JValue.dict g)
    (htopics : ∀ v, lookupStr p "topics" = some v →
      ∃ ts, v = JValue.jlist ts ∧ ∀ x ∈ ts, ∃ sv, x = JValue.s sv) :
    (get_summary (.valid (.dict fields)) t = .ok none ↔ p = []) ∧
    (p ≠ [] →
      get_summary (.valid (.dict fields)) t = .ok (some (specSummaryDigest fields p))) ∧
    (∀ k v, p ≠ [] → containsKey p k = false →
      k ≠ "hooks" → k ≠ "structure" → k ≠ "tone" → k ≠ "ctas" → k ≠ "topics" →
      get_summary (.valid (.dict (setKey fields "patterns" (.dict (p ++ [(k, v)]))))) t =
        get_summary (.valid (.dict fields)) t) := by
  refine ⟨⟨fun h0 => ?_, fun h0 => ?_⟩,
    fun hne => get_summary_digest fields p t hp hne hstruct htone htopics,
    fun k v hne hck h1 h2 h3 h4 h5 => ?_⟩
  · by_contra hneq
    rw [get_summary_digest fields p t hp hneq hstruct htone htopics] at h0
    exact Option.noConfusion (Except.ok.inj h0)
  · subst h0
    simp [get_summary, load, hp, truthy]
  · have hlk : ∀ c, c ≠ k → lookupStr (p ++ [(k, v)]) c = lookupStr p c :=
      fun c hck2 => lookupStr_append_right_ne p k c v hck2
    have hstruct2 : ∀ w, lookupStr (p ++ [(k, v)]) "structure" = some w →
        ∃ g, w = JValue.dict g := by
      intro w hw
      rw [hlk "structure" (Ne.symm h2)] at hw
      exact hstruct w hw
    have htone2 : ∀ w, lookupStr (p ++ [(k, v)]) "tone" = some w →
        ∃ g, w = JValue.dict g := by
      intro w hw
      rw [hlk "tone" (Ne.symm h3)] at hw
      exact htone w hw
    have htopics2 : ∀ w, lookupStr (p ++ [(k, v)]) "topics" = some w →
        ∃ ts, w = JValue.jlist ts ∧ ∀ x ∈ ts, ∃ sv, x = JValue.s sv := by
      intro w hw
      rw [hlk "topics" (Ne.symm h5)] at hw
      exact htopics w hw
    have hdig : specSummaryDigest (setKey fields "patterns" (.dict (p ++ [(k, v)])))
        (p ++ [(k, v)]) = specSummaryDigest fields p := by
      simp only [specSummaryDigest, dictGetD, containsKey,
        lookupStr_setKey_ne fields "patterns" "sources" (JValue.dict (p ++ [(k, v)]))
          (by decide),
        lookupStr_setKey_ne fields "patterns" "updated_at" (JValue.dict (p ++ [(k, v)]))
          (by decide),
        hlk "hooks" (Ne.symm h1), hlk "structure" (Ne.symm h2), hlk "tone" (Ne.symm h3),
        hlk "ctas" (Ne.symm h4), hlk "topics" (Ne.symm h5)]
    rw [get_summary_digest (setKey fields "patterns" (.dict (p ++ [(k, v)]))) (p ++ [(k, v)])
        t (lookupStr_setKey_self fields "patterns" (.dict (p ++ [(k, v)]))) (by simp)
        hstruct2 htone2 htopics2,
      get_summary_digest fields p t hp hne hstruct htone htopics, hdig]

theorem C9_summary_projection_witness :
    (get_summary (.valid (.dict [("patterns", .dict [])])) "t" = .ok none ↔
      ([] : List (String × JValue)) = []) ∧
    get_summary (.valid (.dict [("sources", .jlist [JValue.s "p1"]),
        ("updated_at", .s "t9"),
        ("patterns", .dict [("hooks", .jlist [JValue.dict [("example", JValue.s "A")]]),
          ("tone", .dict [("formality", JValue.s "casual")]),
          ("topics", .jlist [JValue.s "x", JValue.s "y"]),
          ("extra", .s "z")])])) "t" =
      .ok (some ("Sources: 1 posts analyzed\nLast updated: t9\n\nHooks: 1 patterns\n" ++
        "Tone: casual\nTopics: x, y")) := by
  have c1 := (C9_summary_projection [("patterns", .dict [])] [] "t" (by decide)
    (by intro v hv; cases hv) (by intro v hv; cases hv) (by intro v hv; cases hv)).1
  have c2 := (C9_summary_projection
    [("sources", .jlist [JValue.s "p1"]), ("updated_at", .s "t9"),
      ("patterns", .dict [("hooks", .jlist [JValue.dict [("example", JValue.s "A")]]),
        ("tone", .dict [("formality", JValue.s "casual")]),
        ("topics", .jlist [JValue.s "x", JValue.s "y"]),
        ("extra", .s "z")])]
    [("hooks", .jlist [JValue.dict [("example", JValue.s "A")]]),
      ("tone", .dict [("formality", JValue.s "casual")]),
      ("topics", .jlist [JValue.s "x", JValue.s "y"]),
      ("extra", .s "z")] "t" (by decide)
    (by intro v hv; simp [lookupStr] at hv)
    (by
      intro v hv
      simp [lookupStr] at hv
      exact ⟨[("formality", JValue.s "casual")], hv.symm⟩)
    (by
      intro v hv
      simp [lookupStr] at hv
      refine ⟨[JValue.s "x", JValue.s "y"], hv.symm, ?_⟩
      intro x hx
      simp only [List.mem_cons, List.not_mem_nil, or_false] at hx
      rcases hx with rfl | rfl
      · exact ⟨"x", rfl⟩
      · exact ⟨"y", rfl⟩)).2.1 (by simp)
  refine ⟨c1, ?_⟩
  rw [c2]
  decide
